import Mathlib

/-!
Verification of the interval cache of `src/cache/Cache.ts` (dbuezas/plotly-graph-card).

The cache stores, per series key, a sorted deduplicated list of timestamped
observations (`histories`) and a compacted list of covered time ranges
(`ranges`).  `update` serializes operations on a promise chain, computes the
gaps of the requested window against the covered ranges, fetches each gap over
a slightly expanded window, and merges the results.

JavaScript `number` values used for range endpoints are modelled by `XNum`
(integers extended with the two IEEE infinities that the source uses in
`removeOutsideRange`); observation timestamps are finite and modelled by `Int`.
The helper module `date-ranges.ts` (`compactRanges`, `subtractRanges`) and the
type/guard module `types.ts` are not part of the provided sources; they are
modelled from the specification text and marked as such.
-/

/-- JavaScript numbers as used for range endpoints: integers together with
`Number.NEGATIVE_INFINITY` and `Number.POSITIVE_INFINITY` (NaN excluded). -/
inductive XNum where
  | negInf : XNum
  | fin : Int → XNum
  | posInf : XNum
deriving DecidableEq, Repr

namespace XNum

/-- Boolean order on `XNum`, matching the IEEE comparison of JS numbers. -/
def ble : XNum → XNum → Bool
  | negInf, _ => true
  | fin _, negInf => false
  | fin a, fin b => a ≤ b
  | fin _, posInf => true
  | posInf, posInf => true
  | posInf, _ => false

instance : LE XNum := ⟨fun a b => ble a b = true⟩
instance : LT XNum := ⟨fun a b => ble b a = false⟩

instance : DecidableEq XNum := instDecidableEqXNum

instance decidableLE : ∀ a b : XNum, Decidable (a ≤ b) :=
  fun a b => inferInstanceAs (Decidable (ble a b = true))

instance decidableLT : ∀ a b : XNum, Decidable (a < b) :=
  fun a b => inferInstanceAs (Decidable (ble b a = false))

instance : LinearOrder XNum where
  lt := fun a b => ble b a = false
  le_refl a := by
    cases a <;> simp [show ∀ x y : XNum, (x ≤ y) = (ble x y = true) from fun _ _ => rfl, ble]
  le_trans a b c := by
    cases a <;> cases b <;> cases c <;>
      simp [show ∀ x y : XNum, (x ≤ y) = (ble x y = true) from fun _ _ => rfl, ble] <;> omega
  le_antisymm a b := by
    cases a <;> cases b <;>
      simp [show ∀ x y : XNum, (x ≤ y) = (ble x y = true) from fun _ _ => rfl, ble] <;> omega
  le_total a b := by
    cases a <;> cases b <;>
      simp [show ∀ x y : XNum, (x ≤ y) = (ble x y = true) from fun _ _ => rfl, ble] <;> omega
  lt_iff_le_not_le a b := by
    cases a <;> cases b <;>
      simp [show ∀ x y : XNum, (x ≤ y) = (ble x y = true) from fun _ _ => rfl,
        show ∀ x y : XNum, (x < y) = (ble y x = false) from fun _ _ => rfl, ble] <;> omega
  decidableLE := decidableLE
  decidableLT := decidableLT

/-- Successor: models JS `x + 1` (so `Infinity + 1 = Infinity` and
`-Infinity + 1 = -Infinity`). -/
def xsucc : XNum → XNum
  | negInf => negInf
  | fin n => fin (n + 1)
  | posInf => posInf

/-- Predecessor: models JS `x - 1` (so `Infinity - 1 = Infinity` and
`-Infinity - 1 = -Infinity`). -/
def xpred : XNum → XNum
  | negInf => negInf
  | fin n => fin (n - 1)
  | posInf => posInf

/-- Finiteness test: `true` exactly on genuine integers. -/
def isFin : XNum → Bool
  | fin _ => true
  | _ => false

end XNum

/-- A time range, source type `TimestampRange = number[]` used as a pair. -/
abbrev TimestampRange := XNum × XNum

/-- Relation used to sort ranges by start, source comparator `(a, b) => a[0] - b[0]`. -/
def rangeStartLe (a b : TimestampRange) : Prop := a.1 ≤ b.1

instance : DecidableRel rangeStartLe := fun a b => inferInstanceAs (Decidable (a.1 ≤ b.1))

instance : IsTotal TimestampRange rangeStartLe := ⟨fun a b => le_total a.1 b.1⟩

instance : IsTrans TimestampRange rangeStartLe := ⟨fun _ _ _ => le_trans⟩

/-- Modelled from the spec: the merge pass of `compactRanges` in the missing
`date-ranges.ts` — on a list already sorted by start, "merge any pair where the
next range's start ≤ current range's end (inclusive — adjacency counts as
overlap) into one range spanning min(start)..max(end)"; `r1` is the range
currently being grown. -/
def mergeInto (r1 : TimestampRange) : List TimestampRange → List TimestampRange
  | [] => [r1]
  | r2 :: rest =>
    if r2.1 ≤ r1.2 then mergeInto (r1.1, max r1.2 r2.2) rest
    else r1 :: mergeInto r2 rest

/-- The merge pass over the whole sorted list. -/
def mergeSortedRanges : List TimestampRange → List TimestampRange
  | [] => []
  | r :: rest => mergeInto r rest

/-- Modelled from the spec: `compactRanges` of the missing `date-ranges.ts` —
"Sort by start; merge any pair where the next range's start ≤ current range's
end ... Output: sorted, disjoint, minimal-count list." -/
def compactRanges (ranges : List TimestampRange) : List TimestampRange :=
  mergeSortedRanges (List.insertionSort rangeStartLe ranges)

/-- Modelled from the spec: the single-target walk of `subtractRanges` of the
missing `date-ranges.ts` — "for each target range, walk the covered ranges that
intersect it in order, emitting the gap before each intersecting covered range,
advancing the cursor to the covered range's end, and emitting a final gap from
the cursor to the target's end if nonempty", with the inclusive-integer
1-unit-gap convention fixed by spec Scenario B. -/
def subtractOne (cur te : XNum) : List TimestampRange → List TimestampRange
  | [] => if cur ≤ te then [(cur, te)] else []
  | (cs, ce) :: rest =>
    if ce < cur then subtractOne cur te rest
    else if te < cs then if cur ≤ te then [(cur, te)] else []
    else
      (if cur ≤ XNum.xpred cs then [(cur, XNum.xpred cs)] else []) ++
        subtractOne (XNum.xsucc ce) te rest

/-- Modelled from the spec: `subtractRanges(targets, subtracted)` of the missing
`date-ranges.ts` — interval-set difference, target by target. -/
def subtractRanges (targets subtracted : List TimestampRange) : List TimestampRange :=
  targets.flatMap (fun t => subtractOne t.1 t.2 subtracted)

/-- A point is covered by a list of inclusive ranges. -/
def covers (rs : List TimestampRange) (x : XNum) : Prop :=
  ∃ r ∈ rs, r.1 ≤ x ∧ x ≤ r.2

instance (rs : List TimestampRange) (x : XNum) : Decidable (covers rs x) :=
  inferInstanceAs (Decidable (∃ r ∈ rs, _ ∧ _))

/-- An observation; source type `EntityState` of `types.ts` (not in src),
modelled from the spec: "a timestamped data point ... carries a timestamp and a
value payload (opaque to the cache), plus a transient marker". -/
structure EntityState where
  timestamp : Int
  state : String
  fake_boundary_datapoint : Bool
deriving DecidableEq, Repr

/-- Relation used to sort observations, source comparator
`(a, b) => a.timestamp - b.timestamp`. -/
def tsLe (a b : EntityState) : Prop := a.timestamp ≤ b.timestamp

/-- Strict version of `tsLe`, for stating strict sortedness. -/
def tsLt (a b : EntityState) : Prop := a.timestamp < b.timestamp

instance : DecidableRel tsLe := fun a b => inferInstanceAs (Decidable (a.timestamp ≤ b.timestamp))

instance : DecidableRel tsLt := fun a b => inferInstanceAs (Decidable (a.timestamp < b.timestamp))

instance : IsTotal EntityState tsLe := ⟨fun a b => Int.le_total a.timestamp b.timestamp⟩

instance : IsTrans EntityState tsLe := ⟨fun _ _ _ => Int.le_trans⟩

/-- `Cache.add` line 110: `h.filter((x, i) => i == 0 || !x.fake_boundary_datapoint)` —
keep index 0 unconditionally, drop interior boundary points. -/
def boundaryFilter : List EntityState → List EntityState
  | [] => []
  | x :: xs => x :: xs.filter (fun y => !y.fake_boundary_datapoint)

/-- `Cache.add` line 111, tail part: keep an element iff its timestamp differs
from the timestamp of the previous element of the input array
(`h[i - 1]?.timestamp !== h[i].timestamp`). -/
def dedupAfter (prev : Int) : List EntityState → List EntityState
  | [] => []
  | y :: ys =>
    if y.timestamp = prev then dedupAfter y.timestamp ys
    else y :: dedupAfter y.timestamp ys

/-- `Cache.add` line 111: index 0 is always kept (`h[-1]` is `undefined`). -/
def dedupTimestamps : List EntityState → List EntityState
  | [] => []
  | x :: xs => x :: dedupAfter x.timestamp xs

/-- The observation-merge pipeline of `Cache.add` lines 108-111: append the new
states, stable-sort by timestamp, drop interior boundary points, deduplicate by
timestamp keeping the first of each run. -/
def mergeHistory (old new : List EntityState) : List EntityState :=
  dedupTimestamps (boundaryFilter (List.insertionSort tsLe (old ++ new)))

/-- Modelled from the spec: series descriptors of the missing `types.ts` as a
sum over the three recognized shapes plus a malformed case ("malformed
descriptors (matching none of the recognized shapes) are a configuration
error"); the duck-type guards `isEntityIdAttrConfig` / `isEntityIdStatisticsConfig`
/ `isEntityIdStateConfig` become the constructor tests. -/
inductive EntityConfig where
  | stateCfg (entity : String)
  | attrCfg (entity attrName : String)
  | statisticsCfg (entity statistic period : String)
  | malformedCfg (raw : String)
deriving DecidableEq, Repr

/-- `true` on descriptors matching one of the three recognized shapes. -/
def EntityConfig.wellFormed : EntityConfig → Bool
  | .malformedCfg _ => false
  | _ => true

/-- `getEntityKey` (Cache.ts lines 90-99); the `throw new Error` for malformed
descriptors becomes the `Except.error` case. -/
def getEntityKey : EntityConfig → Except String String
  | .attrCfg e a => .ok (e ++ "::" ++ a)
  | .statisticsCfg e s p => .ok (e ++ "::statistics::" ++ s ++ "::" ++ p)
  | .stateCfg e => .ok e
  | .malformedCfg raw => .error ("Entity malformed:" ++ raw)

/-- Cache state: the two `Record<string, ...>` maps of the `Cache` class,
modelled as total functions defaulting to `[]` (a key that was never written
holds `[]`, observationally equal to an absent key: reads use `|| []` and
`??= []`, and `mapValues` maps `[]` to `[]` under both operations). -/
structure CacheState where
  ranges : String → List TimestampRange
  histories : String → List EntityState

/-- The fresh cache (`ranges = {}`, `histories = {}`), also the result of
`clearCache` (Cache.ts lines 118-121). -/
def initState : CacheState := ⟨fun _ => [], fun _ => []⟩

/-- The body of `Cache.add` (lines 107-115) once the entity key is known:
merge the states into the key's history and compact the key's ranges with the
new range appended. -/
def addByKey (key : String) (states : List EntityState) (range : TimestampRange)
    (s : CacheState) : CacheState :=
  ⟨fun k => if k = key then compactRanges (s.ranges key ++ [range]) else s.ranges k,
   fun k => if k = key then mergeHistory (s.histories key) states else s.histories k⟩

/-- `Cache.add` (lines 105-116).  A malformed descriptor throws at
`getEntityKey`, before any mutation, so the state is unchanged in that case. -/
def add (entity : EntityConfig) (states : List EntityState) (range : TimestampRange)
    (s : CacheState) : CacheState :=
  match getEntityKey entity with
  | .ok key => addByKey key states range s
  | .error _ => s

/-- `Cache.getHistory` (lines 122-125): `this.histories[key] || []`, after a
key derivation that can throw. -/
def getHistory (s : CacheState) (entity : EntityConfig) : Except String (List EntityState) :=
  (getEntityKey entity).map (fun key => s.histories key)

/-- The history filter of `Cache.removeOutsideRange` (lines 168-183), with the
mutable `first`/`last` of the JS closure made explicit: walk the history in
order; a datum at or before `range[0]` becomes the new `first` and is dropped;
otherwise, if no `last` was captured yet, a datum at or after `range[1]`
becomes `last` and is dropped; every other datum is kept. -/
def trimWalk (first lastv : Option EntityState) (r0 r1 : Int) :
    List EntityState → List EntityState × Option EntityState × Option EntityState
  | [] => ([], first, lastv)
  | d :: ds =>
    if d.timestamp ≤ r0 then trimWalk (some d) lastv r0 r1 ds
    else if lastv.isNone ∧ d.timestamp ≥ r1 then trimWalk first (some d) r0 r1 ds
    else
      let (kept, f, l) := trimWalk first lastv r0 r1 ds
      (d :: kept, f, l)

/-- One series history after `Cache.removeOutsideRange`: the kept data with the
captured `first` unshifted and the captured `last` pushed. -/
def trimHistory (r0 r1 : Int) (history : List EntityState) : List EntityState :=
  let (kept, f, l) := trimWalk none none r0 r1 history
  (match f with | some x => [x] | none => []) ++ kept ++
    (match l with | some x => [x] | none => [])

/-- `Cache.removeOutsideRange` (lines 161-185): per key, subtract the two
unbounded outside ranges from the covered ranges and trim the history. -/
def rmOutsideState (r0 r1 : Int) (s : CacheState) : CacheState :=
  ⟨fun k =>
      subtractRanges (s.ranges k)
        [(XNum.negInf, XNum.fin (r0 - 1)), (XNum.fin (r1 + 1), XNum.posInf)],
   fun k => trimHistory r0 r1 (s.histories k)⟩

/-- `history[0].fake_boundary_datapoint = true` on a non-empty fetch result
(Cache.ts lines 81-83). -/
def markFirstBoundary : List EntityState → List EntityState
  | [] => []
  | x :: xs => { x with fake_boundary_datapoint := true } :: xs

/-- Return type of `fetchSingleRange` (`HistoryInRange` of `types.ts`). -/
structure HistoryInRange where
  range : TimestampRange
  history : List EntityState
deriving DecidableEq, Repr

/-- The window actually requested from the adapter by `fetchSingleRange`:
`[startT - 1, min(endT, Date.now())]` (lines 64-66). -/
def fetchWindow (gap : TimestampRange) (now : Int) : TimestampRange :=
  (XNum.xpred gap.1, min gap.2 (XNum.fin now))

/-- `fetchSingleRange` (Cache.ts lines 21-88) with the external adapters
(`fetchStates` / `fetchStatistics`, both outside this core) abstracted as one
opaque fallible function from the requested window to an observation list.
The covered range reported back is `[startT, min(endT, now)]`, not the
expanded window, and a non-empty result gets its first element marked as a
fake boundary datapoint. -/
def fetchSingleRange (adapter : TimestampRange → Except Unit (List EntityState))
    (now : Int) (gap : TimestampRange) : Except Unit HistoryInRange :=
  let endT := min gap.2 (XNum.fin now)
  match adapter (XNum.xpred gap.1, endT) with
  | .error e => .error e
  | .ok history => .ok ⟨(gap.1, endT), markFirstBoundary history⟩

/-- The per-gap fetch loop of one entity inside `Cache.update` (lines 144-154):
fetch each gap in order and `add` the result; a rejected fetch aborts the rest
of this entity's loop (the `await` throws out of the `for` loop) without
touching the state further. -/
def runGapsSeq (adapter : String → TimestampRange → Except Unit (List EntityState))
    (now : Int) (key : String) : CacheState → List TimestampRange → CacheState
  | s, [] => s
  | s, g :: gs =>
    match fetchSingleRange (adapter key) now g with
    | .error _ => s
    | .ok hir => runGapsSeq adapter now key (addByKey key hir.history hir.range s) gs

/-- One `Cache.update` call (lines 126-159) under the sequential schedule: the
optional trim runs first; then every entity's gap list is computed from that
same state (in the source all `subtractRanges` calls run synchronously before
the first `await`); then each entity's fetch loop runs.  An entity whose key
derivation throws contributes a rejected promise and no state change.  The
busy-chain and fetch timing are modelled separately below for the temporal
claims. -/
def updateSeq (adapter : String → TimestampRange → Except Unit (List EntityState))
    (range : Int × Int) (removeOutside : Bool) (entities : List EntityConfig)
    (now : Int) (s : CacheState) : CacheState :=
  let s2 := if removeOutside then rmOutsideState range.1 range.2 s else s
  let plans := entities.filterMap (fun e =>
    match getEntityKey e with
    | .ok k =>
        some (k, subtractRanges [(XNum.fin range.1, XNum.fin range.2)] (s2.ranges k))
    | .error _ => none)
  plans.foldl (fun st p => runGapsSeq adapter now p.1 st p.2) s2

/-- A call to one of the public mutating operations of `Cache`. -/
inductive CacheOp where
  | addCall (entity : EntityConfig) (states : List EntityState) (range : TimestampRange)
  | updateCall (range : Int × Int) (removeOutside : Bool)
      (entities : List EntityConfig) (now : Int)
  | trimCall (range : Int × Int)
  | clearCall

/-- Apply one public operation to the cache state. -/
def applyOp (adapter : String → TimestampRange → Except Unit (List EntityState))
    (s : CacheState) : CacheOp → CacheState
  | .addCall e states range => add e states range s
  | .updateCall range ro entities now => updateSeq adapter range ro entities now s
  | .trimCall range => rmOutsideState range.1 range.2 s
  | .clearCall => initState

/-- Run a sequence of public operations from a starting state. -/
def runOps (adapter : String → TimestampRange → Except Unit (List EntityState))
    (s : CacheState) (ops : List CacheOp) : CacheState :=
  ops.foldl (applyOp adapter) s

/-! ### Timed model of the busy chain (`Cache.busy`, `Cache.update`)

The sequential model above fixes one schedule.  The temporal claims about the
promise chain and `Promise.all` need fetch timing, so the following model gives
every fetch a duration and an outcome.  Within one `update`, each entity's
fetch loop runs sequentially on its own clock starting at the body's start
tick; the loop's merges are recorded as pending events that apply when their
fetch settles.  `Promise.all` fulfills when the last entity promise has
fulfilled and rejects at the first rejection; the busy chain starts the next
update's body when the previous update's promise settles, whether fulfilled or
rejected (`this.busy.catch(() => ..).then(..)`, lines 134-136).  Pending
merges whose fetch has not settled by then remain in flight across the body
start. -/

/-- Externally observable behaviour of one adapter fetch in the timed model:
how many ticks the fetch takes and what it returns. -/
structure FetchReply where
  duration : Nat
  result : Except Unit (List EntityState)

/-- A merge (`this.add(...)`, line 153) that applies when its fetch settles. -/
structure TimedEvent where
  time : Nat
  key : String
  states : List EntityState
  range : TimestampRange
deriving DecidableEq, Repr

/-- Relation sorting pending merges by settlement time (the sort is stable, so
merges settling on the same tick apply in creation order). -/
def timeLe (a b : TimedEvent) : Prop := a.time ≤ b.time

instance : DecidableRel timeLe := fun a b => inferInstanceAs (Decidable (a.time ≤ b.time))

instance : IsTotal TimedEvent timeLe := ⟨fun a b => Nat.le_total a.time b.time⟩

instance : IsTrans TimedEvent timeLe := ⟨fun _ _ _ => Nat.le_trans⟩

/-- Outcome of one entity's async callback within one `update`: the merges it
will apply, its own settlement tick, and whether it fulfilled. -/
structure EntityOutcome where
  events : List TimedEvent
  settle : Nat
  ok : Bool
deriving DecidableEq, Repr

/-- One entity's fetch loop (lines 144-154) in the timed model: gaps are
fetched in order, each fetch taking its reply's duration; a successful fetch
schedules its merge at its settlement tick, a failed fetch rejects the entity's
promise there and abandons its remaining gaps. -/
def runGapsT (oracle : String → TimestampRange → FetchReply) (key : String)
    (now : Int) : Nat → List TimestampRange → EntityOutcome
  | t, [] => ⟨[], t, true⟩
  | t, g :: gs =>
    let reply := oracle key (fetchWindow g now)
    let t1 := t + reply.duration
    match reply.result with
    | .error _ => ⟨[], t1, false⟩
    | .ok h =>
      let out := runGapsT oracle key now t1 gs
      ⟨⟨t1, key, markFirstBoundary h, (g.1, min g.2 (XNum.fin now))⟩ :: out.events,
        out.settle, out.ok⟩

/-- One `update` call in the timed model. -/
structure UpdateSpec where
  range : Int × Int
  removeOutside : Bool
  entities : List EntityConfig
  now : Int

/-- What one round (one `update` body and its fan-out) left behind. -/
structure RoundLog where
  start : Nat
  settle : Nat
  gaps : List (String × List TimestampRange)
  events : List TimedEvent
deriving DecidableEq, Repr

/-- One entity inside one `update` body: key derivation (a throw rejects the
entity's promise at the body's start tick), gap computation against the state
the body observes, then the fetch loop. -/
def runEntityT (oracle : String → TimestampRange → FetchReply) (s2 : CacheState)
    (t : Nat) (u : UpdateSpec) (e : EntityConfig) :
    (String × List TimestampRange) × EntityOutcome :=
  match getEntityKey e with
  | .error _ => (("", []), ⟨[], t, false⟩)
  | .ok k =>
    let gaps := subtractRanges [(XNum.fin u.range.1, XNum.fin u.range.2)] (s2.ranges k)
    ((k, gaps), runGapsT oracle k u.now t gaps)

/-- Settlement tick of `await Promise.all(promises)` (line 157): when every
entity promise fulfills it fulfills once the last has (and no earlier than the
body start); otherwise it rejects at the earliest rejection. -/
def promiseAllSettle (t : Nat) (outs : List EntityOutcome) : Nat :=
  match (outs.filter (fun o => !o.ok)).map EntityOutcome.settle with
  | [] => (outs.map EntityOutcome.settle).foldl max t
  | f :: fs => fs.foldl min f

/-- Apply settled merges in order. -/
def applyEvents (s : CacheState) (evs : List TimedEvent) : CacheState :=
  evs.foldl (fun st ev => addByKey ev.key ev.states ev.range st) s

/-- One round of the busy chain: apply the pending merges that settled by the
body's start tick in settlement order, run the optional trim, compute every
entity's gaps from that state (all before the first `await`), run the fetch
loops, and settle as `Promise.all` does. -/
def runRound (oracle : String → TimestampRange → FetchReply) (s : CacheState)
    (pending : List TimedEvent) (t : Nat) (u : UpdateSpec) :
    CacheState × List TimedEvent × RoundLog :=
  let due := (List.insertionSort timeLe pending).filter (fun ev => ev.time ≤ t)
  let later := pending.filter (fun ev => t < ev.time)
  let s1 := applyEvents s due
  let s2 := if u.removeOutside then rmOutsideState u.range.1 u.range.2 s1 else s1
  let rs := u.entities.map (runEntityT oracle s2 t u)
  let outs := rs.map Prod.snd
  let settle := promiseAllSettle t outs
  let newEvents := (rs.map (fun r => r.2.events)).flatten
  (s2, later ++ newEvents, ⟨t, settle, rs.map Prod.fst, newEvents⟩)

/-- The busy chain over a list of `update` calls: each body starts when the
previous update's promise settles, fulfilled or rejected. -/
def runTimed (oracle : String → TimestampRange → FetchReply) :
    CacheState → List TimedEvent → Nat → List UpdateSpec →
      CacheState × List TimedEvent × List RoundLog
  | s, pending, _, [] => (s, pending, [])
  | s, pending, t, u :: us =>
    let r := runRound oracle s pending t u
    let rest := runTimed oracle r.1 r.2.1 r.2.2.settle us
    (rest.1, rest.2.1, r.2.2 :: rest.2.2)

/-! ### Maintained invariants -/

/-- The maintained shape of one series's observation sequence: strictly sorted
by timestamp (hence no two observations share a timestamp) and no
boundary-flagged observation outside index 0. -/
def histInv (h : List EntityState) : Prop :=
  List.Pairwise tsLt h ∧ ∀ y ∈ h.tail, y.fake_boundary_datapoint = false

/-- The maintained shape of one series's covered-range list: finite bounds,
start ≤ end, strictly separated and sorted. -/
def rangesInv (rs : List TimestampRange) : Prop :=
  (∀ r ∈ rs, r.1.isFin = true ∧ r.2.isFin = true ∧ r.1 ≤ r.2) ∧
    List.Chain' (fun a b : TimestampRange => a.2 < b.1) rs

/-- Adapter behaviour used by the temporal counterexamples: the fetch of series
`A` fails after 5 ticks, every other fetch succeeds after 10 ticks with one
observation at timestamp 0. -/
def oracleAB : String → TimestampRange → FetchReply :=
  fun k _ => if k = "A" then ⟨5, .error ()⟩ else ⟨10, .ok [⟨0, "on", false⟩]⟩

/-- First update of the temporal counterexamples: window [0, 100] over series
`A` and `B`. -/
def updateAB : UpdateSpec := ⟨(0, 100), false, [.stateCfg "A", .stateCfg "B"], 1000⟩

/-- Second update of the temporal counterexamples: window [0, 100] over `B` only. -/
def updateB : UpdateSpec := ⟨(0, 100), false, [.stateCfg "B"], 1000⟩

/-- Precondition on one public operation under which stored ranges stay
ordered: a range passed to `add` is an ordered pair, and an `update` does not
request a window beyond the wall clock. -/
def opOrdered : CacheOp → Prop
  | .addCall _ _ r => r.1 ≤ r.2
  | .updateCall r _ _ now => r.2 ≤ now
  | .trimCall _ => True
  | .clearCall => True

instance : DecidablePred opOrdered := fun op =>
  match op with
  | .addCall _ _ r => inferInstanceAs (Decidable (r.1 ≤ r.2))
  | .updateCall r _ _ now => inferInstanceAs (Decidable (r.2 ≤ now))
  | .trimCall _ => inferInstanceAs (Decidable True)
  | .clearCall => inferInstanceAs (Decidable True)

/-! ### Lemmas -/

namespace XNum

theorem le_def (a b : XNum) : (a ≤ b) = (ble a b = true) := rfl

theorem lt_def (a b : XNum) : (a < b) = (ble b a = false) := rfl

@[simp] theorem fin_le_fin (a b : Int) : (fin a ≤ fin b) ↔ a ≤ b := by
  simp [le_def, ble]

@[simp] theorem fin_lt_fin (a b : Int) : (fin a < fin b) ↔ a < b := by
  simp [lt_def, ble]

@[simp] theorem negInf_le (a : XNum) : negInf ≤ a := by cases a <;> simp [le_def, ble]

@[simp] theorem le_posInf (a : XNum) : a ≤ posInf := by cases a <;> simp [le_def, ble]

@[simp] theorem not_posInf_le_fin (a : Int) : ¬ (posInf ≤ fin a) := by simp [le_def, ble]

@[simp] theorem not_fin_le_negInf (a : Int) : ¬ (fin a ≤ negInf) := by simp [le_def, ble]

@[simp] theorem not_posInf_le_negInf : ¬ ((posInf : XNum) ≤ negInf) := by simp [le_def, ble]

theorem le_xsucc (a : XNum) : a ≤ xsucc a := by
  cases a <;> simp [xsucc, le_def, ble]

theorem xpred_le (a : XNum) : xpred a ≤ a := by
  cases a <;> simp [xpred, le_def, ble]

theorem lt_xsucc_of_isFin {a : XNum} (h : isFin a = true) : a < xsucc a := by
  cases a <;> simp_all [isFin, xsucc]

theorem xpred_lt_of_isFin {a : XNum} (h : isFin a = true) : xpred a < a := by
  cases a <;> simp_all [isFin, xpred]

theorem le_xpred_of_lt_of_isFin {a b : XNum} (hb : isFin b = true) (h : a < b) :
    a ≤ xpred b := by
  cases a <;> cases b <;> simp_all [isFin, xpred, lt_def, le_def, ble] <;> omega

theorem xsucc_le_of_lt_of_isFin {a b : XNum} (ha : isFin a = true) (h : a < b) :
    xsucc a ≤ b := by
  cases a <;> cases b <;> simp_all [isFin, xsucc, lt_def, le_def, ble] <;> omega

theorem isFin_xsucc {a : XNum} (h : isFin a = true) : isFin (xsucc a) = true := by
  cases a <;> simp_all [isFin, xsucc]

theorem isFin_xpred {a : XNum} (h : isFin a = true) : isFin (xpred a) = true := by
  cases a <;> simp_all [isFin, xpred]

end XNum

theorem dedupAfter_sublist (prev : Int) (l : List EntityState) :
    (dedupAfter prev l).Sublist l := by
  induction l generalizing prev with
  | nil => simp [dedupAfter]
  | cons y ys ih =>
    simp only [dedupAfter]
    split
    · exact (ih y.timestamp).cons y
    · exact (ih y.timestamp).cons₂ y

theorem dedupAfter_strict {l : List EntityState} {prev : Int}
    (hs : List.Pairwise tsLe l) (hb : ∀ y ∈ l, prev ≤ y.timestamp) :
    (∀ y ∈ dedupAfter prev l, prev < y.timestamp) ∧
      List.Pairwise tsLt (dedupAfter prev l) := by
  induction l generalizing prev with
  | nil => simp [dedupAfter]
  | cons y ys ih =>
    rcases List.pairwise_cons.mp hs with ⟨hy, hys⟩
    have hrec := @ih y.timestamp hys (fun z hz => hy z hz)
    simp only [dedupAfter]
    split
    · rename_i heq
      subst heq
      exact hrec
    · rename_i hne
      have hpy : prev < y.timestamp :=
        lt_of_le_of_ne (hb y (List.mem_cons_self y ys)) (fun h => hne h.symm)
      constructor
      · intro z hz
        rcases List.mem_cons.mp hz with rfl | hz2
        · exact hpy
        · exact lt_trans hpy (hrec.1 z hz2)
      · exact List.pairwise_cons.mpr ⟨fun z hz => hrec.1 z hz, hrec.2⟩

theorem dedupAfter_eq_self {l : List EntityState} {prev : Int}
    (hb : ∀ y ∈ l, prev < y.timestamp) (hs : List.Pairwise tsLt l) :
    dedupAfter prev l = l := by
  induction l generalizing prev with
  | nil => simp [dedupAfter]
  | cons y ys ih =>
    rcases List.pairwise_cons.mp hs with ⟨hy, hys⟩
    have hne : y.timestamp ≠ prev := by
      have := hb y (List.mem_cons_self y ys)
      omega
    simp only [dedupAfter, if_neg hne]
    exact congrArg (y :: ·) (ih (fun z hz => hy z hz) hys)

theorem histInv_pipeline {l : List EntityState} (hs : List.Sorted tsLe l) :
    histInv (dedupTimestamps (boundaryFilter l)) := by
  cases l with
  | nil => simp [boundaryFilter, dedupTimestamps, histInv]
  | cons x xs =>
    simp only [boundaryFilter, dedupTimestamps]
    have hsub : (x :: xs.filter (fun y => !y.fake_boundary_datapoint)).Sublist (x :: xs) :=
      (List.filter_sublist xs).cons₂ x
    have hs2 : List.Pairwise tsLe (x :: xs.filter (fun y => !y.fake_boundary_datapoint)) :=
      hs.sublist hsub
    rcases List.pairwise_cons.mp hs2 with ⟨hx, hxs⟩
    have hd := @dedupAfter_strict _ x.timestamp hxs (fun z hz => hx z hz)
    constructor
    · exact List.pairwise_cons.mpr ⟨fun z hz => hd.1 z hz, hd.2⟩
    · intro y hy
      simp only [List.tail_cons] at hy
      have hy2 := (dedupAfter_sublist _ _).mem hy
      have := List.of_mem_filter hy2
      simpa using this

theorem histInv_mergeHistory (old new : List EntityState) :
    histInv (mergeHistory old new) :=
  histInv_pipeline (List.sorted_insertionSort tsLe (old ++ new))

theorem histInv_add (e : EntityConfig) (states : List EntityState)
    (range : TimestampRange) (s : CacheState) (k : String)
    (hk : histInv (s.histories k)) : histInv ((add e states range s).histories k) := by
  unfold add
  cases getEntityKey e with
  | error _ => exact hk
  | ok key =>
    simp only [addByKey]
    split
    · exact histInv_mergeHistory _ _
    · exact hk

/-- C1: after any sequence of `add` calls starting from the empty cache, every
series's observation sequence is strictly sorted by timestamp (hence has no two
observations with the same timestamp) and carries the boundary flag at most at
index 0. -/
theorem C1_add_invariant
    (calls : List (EntityConfig × List EntityState × TimestampRange)) (key : String) :
    List.Pairwise tsLt
        ((calls.foldl (fun st c => add c.1 c.2.1 c.2.2 st) initState).histories key) ∧
      ∀ y ∈ ((calls.foldl (fun st c => add c.1 c.2.1 c.2.2 st) initState).histories
          key).tail,
        y.fake_boundary_datapoint = false := by
  suffices h : ∀ s : CacheState, (∀ k, histInv (s.histories k)) →
      ∀ k, histInv ((calls.foldl (fun st c => add c.1 c.2.1 c.2.2 st) s).histories k) by
    exact h initState (fun _ => by simp [initState, histInv]) key
  induction calls with
  | nil => intro s hs k; exact hs k
  | cons c cs ih =>
    intro s hs k
    exact ih (add c.1 c.2.1 c.2.2 s) (fun k2 => histInv_add _ _ _ _ _ (hs k2)) k

/-- C2: fetching gap [startT, endT] requests the adapter over the expanded
window [startT − 1, min(endT, now)], marks the first element of a non-empty
result as a boundary point (an empty result stays empty), and reports the
covered range [startT, min(endT, now)] — whose start lies strictly above the
extra earlier unit of the expanded window. -/
theorem C2_fetchSingleRange (adapter : TimestampRange → Except Unit (List EntityState))
    (now : Int) (gap : TimestampRange) (h : List EntityState)
    (ha : adapter (fetchWindow gap now) = .ok h) :
    fetchSingleRange adapter now gap =
        .ok ⟨(gap.1, min gap.2 (XNum.fin now)), markFirstBoundary h⟩ ∧
      ((markFirstBoundary h).map EntityState.fake_boundary_datapoint).head? =
        h.head?.map (fun _ => true) ∧
      (markFirstBoundary h).map EntityState.timestamp = h.map EntityState.timestamp ∧
      (markFirstBoundary h).tail = h.tail ∧
      (gap.1.isFin = true → (fetchWindow gap now).1 < gap.1) := by
  refine ⟨?_, ?_, ?_, ?_, ?_⟩
  · have ha2 : adapter (XNum.xpred gap.1, min gap.2 (XNum.fin now)) = .ok h := ha
    unfold fetchSingleRange
    simp [ha2]
  · cases h <;> simp [markFirstBoundary]
  · cases h <;> simp [markFirstBoundary]
  · cases h <;> simp [markFirstBoundary]
  · intro hf
    simpa [fetchWindow] using XNum.xpred_lt_of_isFin hf

/-- C2 witness: the theorem applied to a concrete adapter, gap [10, 200] and
wall clock 100. -/
theorem C2_fetch_witness :
    fetchSingleRange (fun _ => Except.ok [⟨5, "a", false⟩]) 100 (XNum.fin 10, XNum.fin 200) =
        Except.ok ⟨(XNum.fin 10, min (XNum.fin 200) (XNum.fin 100)),
          markFirstBoundary [⟨5, "a", false⟩]⟩ ∧
      ((markFirstBoundary [(⟨5, "a", false⟩ : EntityState)]).map
          EntityState.fake_boundary_datapoint).head? =
        ([(⟨5, "a", false⟩ : EntityState)].head?).map (fun _ => true) ∧
      (markFirstBoundary [(⟨5, "a", false⟩ : EntityState)]).map EntityState.timestamp =
        [(⟨5, "a", false⟩ : EntityState)].map EntityState.timestamp ∧
      (markFirstBoundary [(⟨5, "a", false⟩ : EntityState)]).tail =
        ([(⟨5, "a", false⟩ : EntityState)]).tail ∧
      ((XNum.fin 10).isFin = true → (fetchWindow (XNum.fin 10, XNum.fin 200) 100).1 < XNum.fin 10) :=
  C2_fetchSingleRange (fun _ => Except.ok [⟨5, "a", false⟩]) 100 (XNum.fin 10, XNum.fin 200)
    [⟨5, "a", false⟩] rfl

/-- C3: code evaluation at the failing input.  On observations at timestamps
[5, 60, 100, 160, 300] with range [50, 150], the claim (and spec Scenario E)
expects [5, 60, 100, 160] with 300 dropped; the code instead keeps 300 — every
observation after the first captured at-or-after-end anchor passes the filter —
and appends the anchor 160 behind it, leaving the sequence out of order. -/
theorem C3_trim_eval :
    (rmOutsideState 50 150
          ⟨fun _ => [],
            fun k => if k = "k" then
              [⟨5, "a", false⟩, ⟨60, "b", false⟩, ⟨100, "c", false⟩,
                ⟨160, "d", false⟩, ⟨300, "e", false⟩]
            else []⟩).histories "k" =
        [⟨5, "a", false⟩, ⟨60, "b", false⟩, ⟨100, "c", false⟩,
          ⟨300, "e", false⟩, ⟨160, "d", false⟩] ∧
      (rmOutsideState 50 150
          ⟨fun _ => [],
            fun k => if k = "k" then
              [⟨5, "a", false⟩, ⟨60, "b", false⟩, ⟨100, "c", false⟩,
                ⟨160, "d", false⟩, ⟨300, "e", false⟩]
            else []⟩).histories "k" ≠
        [⟨5, "a", false⟩, ⟨60, "b", false⟩, ⟨100, "c", false⟩, ⟨160, "d", false⟩] := by
  constructor
  · decide
  · decide

/-- C8 (amended): for every well-formed series descriptor `getHistory` never
fails and returns the stored observation sequence, and on the fresh cache (any
unknown series) it returns the empty sequence. -/
theorem C8_getHistory (s : CacheState) (e : EntityConfig) (hw : e.wellFormed = true) :
    (∃ k, getEntityKey e = .ok k ∧ getHistory s e = .ok (s.histories k)) ∧
      getHistory initState e = .ok [] := by
  cases e <;>
    simp_all [EntityConfig.wellFormed, getEntityKey, getHistory, initState, Except.map]

/-- C8 witness: the theorem applied to the fresh cache and a plain state
descriptor. -/
theorem C8_getHistory_witness :
    (EntityConfig.stateCfg "sensor.x").wellFormed = true ∧
      ((∃ k, getEntityKey (EntityConfig.stateCfg "sensor.x") = .ok k ∧
          getHistory initState (EntityConfig.stateCfg "sensor.x") =
            .ok (initState.histories k)) ∧
        getHistory initState (EntityConfig.stateCfg "sensor.x") = .ok []) :=
  ⟨rfl, C8_getHistory initState (EntityConfig.stateCfg "sensor.x") rfl⟩

/-- C8 counterexample: `getHistory` does fail on a malformed descriptor — the
key derivation throws `Entity malformed:...` before the map is read. -/
theorem C8_counterexample :
    getHistory initState (EntityConfig.malformedCfg "cfg") =
      .error ("Entity malformed:cfg") := rfl

namespace XNum

theorem le_xpred_of_lt {a b : XNum} (h : a < b) : a ≤ xpred b := by
  cases a <;> cases b <;> simp_all [xpred, lt_def, le_def, ble] <;> omega

theorem xsucc_le_of_lt {a b : XNum} (h : a < b) : xsucc a ≤ b := by
  cases a <;> cases b <;> simp_all [xsucc, lt_def, le_def, ble] <;> omega

end XNum

theorem covers_nil (x : XNum) : ¬ covers [] x := by simp [covers]

theorem covers_cons {r : TimestampRange} {rs : List TimestampRange} {x : XNum} :
    covers (r :: rs) x ↔ (r.1 ≤ x ∧ x ≤ r.2) ∨ covers rs x := by
  simp [covers]

theorem covers_append {a b : List TimestampRange} {x : XNum} :
    covers (a ++ b) x ↔ covers a x ∨ covers b x := by
  constructor
  · rintro ⟨r, hr, hx⟩
    rcases List.mem_append.mp hr with h | h
    · exact Or.inl ⟨r, h, hx⟩
    · exact Or.inr ⟨r, h, hx⟩
  · rintro (⟨r, hr, hx⟩ | ⟨r, hr, hx⟩)
    · exact ⟨r, List.mem_append.mpr (Or.inl hr), hx⟩
    · exact ⟨r, List.mem_append.mpr (Or.inr hr), hx⟩

theorem covers_of_perm {a b : List TimestampRange} (h : a.Perm b) {x : XNum} :
    covers a x ↔ covers b x := by
  constructor
  · rintro ⟨r, hr, hx⟩; exact ⟨r, h.mem_iff.mp hr, hx⟩
  · rintro ⟨r, hr, hx⟩; exact ⟨r, h.mem_iff.mpr hr, hx⟩

theorem subtractOne_mem {C : List TimestampRange} {cur te : XNum} {r : TimestampRange}
    (hr : r ∈ subtractOne cur te C) : cur ≤ r.1 ∧ r.1 ≤ r.2 ∧ r.2 ≤ te := by
  induction C generalizing cur with
  | nil =>
    simp only [subtractOne] at hr
    split at hr
    · rcases List.mem_singleton.mp hr with rfl
      exact ⟨le_refl _, by assumption, le_refl _⟩
    · simp at hr
  | cons c rest ih =>
    obtain ⟨cs, ce⟩ := c
    simp only [subtractOne] at hr
    split at hr
    · exact ih hr
    · rename_i hce
      split at hr
      · rename_i hte
        split at hr
        · rcases List.mem_singleton.mp hr with rfl
          exact ⟨le_refl _, by assumption, le_refl _⟩
        · simp at hr
      · rename_i hte
        rcases List.mem_append.mp hr with hl | hrr
        · split at hl
          · rename_i hgap
            rcases List.mem_singleton.mp hl with rfl
            exact ⟨le_refl _, hgap, le_trans (XNum.xpred_le cs) (not_lt.mp hte)⟩
          · simp at hl
        · have hrec := ih hrr
          refine ⟨?_, hrec.2.1, hrec.2.2⟩
          exact le_trans (le_trans (not_lt.mp hce) (XNum.le_xsucc ce)) hrec.1

theorem subtractOne_isFin {C : List TimestampRange}
    (hC : ∀ r ∈ C, r.1.isFin = true ∧ r.2.isFin = true) {cur te : XNum}
    (hcur : cur.isFin = true) (hte : te.isFin = true) :
    ∀ r ∈ subtractOne cur te C, r.1.isFin = true ∧ r.2.isFin = true := by
  induction C generalizing cur with
  | nil =>
    intro r hr
    simp only [subtractOne] at hr
    split at hr
    · rcases List.mem_singleton.mp hr with rfl
      exact ⟨hcur, hte⟩
    · simp at hr
  | cons c rest ih =>
    obtain ⟨cs, ce⟩ := c
    intro r hr
    simp only [subtractOne] at hr
    split at hr
    · exact ih (fun r2 h2 => hC r2 (List.mem_cons_of_mem _ h2)) hcur r hr
    · split at hr
      · split at hr
        · rcases List.mem_singleton.mp hr with rfl
          exact ⟨hcur, hte⟩
        · simp at hr
      · rcases List.mem_append.mp hr with hl | hrr
        · split at hl
          · rcases List.mem_singleton.mp hl with rfl
            exact ⟨hcur, XNum.isFin_xpred (hC (cs, ce) (List.mem_cons_self _ _)).1⟩
          · simp at hl
        · exact ih (fun r2 h2 => hC r2 (List.mem_cons_of_mem _ h2))
            (XNum.isFin_xsucc (hC (cs, ce) (List.mem_cons_self _ _)).2) r hrr

theorem subtractOne_covers {C : List TimestampRange} {cur te x : XNum}
    (hx1 : cur ≤ x) (hx2 : x ≤ te) (hnc : ¬ covers C x) :
    covers (subtractOne cur te C) x := by
  induction C generalizing cur with
  | nil =>
    simp only [subtractOne, if_pos (le_trans hx1 hx2)]
    exact ⟨(cur, te), List.mem_singleton_self _, hx1, hx2⟩
  | cons c rest ih =>
    obtain ⟨cs, ce⟩ := c
    rw [covers_cons, not_or] at hnc
    obtain ⟨hnc1, hnc2⟩ := hnc
    simp only [subtractOne]
    split
    · exact ih hx1 hnc2
    · rename_i hce
      split
      · rename_i hte
        simp only [if_pos (le_trans hx1 hx2)]
        exact ⟨(cur, te), List.mem_singleton_self _, hx1, hx2⟩
      · rename_i hte
        rcases lt_or_le x cs with hxcs | hcsx
        · have hgap : cur ≤ XNum.xpred cs := le_trans hx1 (XNum.le_xpred_of_lt hxcs)
          rw [if_pos hgap]
          exact covers_append.mpr (Or.inl
            ⟨(cur, XNum.xpred cs), List.mem_singleton_self _, hx1, XNum.le_xpred_of_lt hxcs⟩)
        · have hxce : ce < x := by
            by_contra hle
            exact hnc1 ⟨hcsx, not_lt.mp hle⟩
          have := ih (XNum.xsucc_le_of_lt hxce) hnc2
          exact covers_append.mpr (Or.inr this)

theorem chain_sep {c : TimestampRange} {rest : List TimestampRange}
    (hch : List.Chain' (fun a b : TimestampRange => a.2 < b.1) (c :: rest))
    (hse : ∀ r ∈ rest, r.1 ≤ r.2) : ∀ r ∈ rest, c.2 < r.1 := by
  induction rest generalizing c with
  | nil => simp
  | cons r2 rest2 ih =>
    intro r hr
    have h12 : c.2 < r2.1 := List.chain'_cons.mp hch |>.1
    rcases List.mem_cons.mp hr with rfl | hr2
    · exact h12
    · have := ih (c := r2) (List.chain'_cons.mp hch).2
        (fun q hq => hse q (List.mem_cons_of_mem _ hq)) r hr2
      calc c.2 < r2.1 := h12
        _ ≤ r2.2 := hse r2 (List.mem_cons_self _ _)
        _ < r.1 := this

theorem subtractOne_sound {C : List TimestampRange}
    (hfin : ∀ r ∈ C, r.1.isFin = true ∧ r.2.isFin = true ∧ r.1 ≤ r.2)
    (hch : List.Chain' (fun a b : TimestampRange => a.2 < b.1) C) {cur te x : XNum}
    (hx : covers (subtractOne cur te C) x) : ¬ covers C x := by
  induction C generalizing cur with
  | nil => exact fun h => covers_nil x h
  | cons c rest ih =>
    obtain ⟨cs, ce⟩ := c
    obtain ⟨hcsF, hceF, hsce⟩ := hfin (cs, ce) (List.mem_cons_self _ _)
    have hfin2 : ∀ r ∈ rest, r.1.isFin = true ∧ r.2.isFin = true ∧ r.1 ≤ r.2 :=
      fun r h => hfin r (List.mem_cons_of_mem _ h)
    have hsep : ∀ r ∈ rest, ce < r.1 :=
      chain_sep hch (fun r h => (hfin2 r h).2.2)
    have hch2 : List.Chain' (fun a b : TimestampRange => a.2 < b.1) rest :=
      (List.chain'_cons'.mp hch).2
    simp only [subtractOne] at hx
    split at hx
    · rename_i hce
      have hnr := ih hfin2 hch2 hx
      obtain ⟨r, hr, hx1, hx2⟩ := hx
      have hb := subtractOne_mem hr
      rw [covers_cons, not_or]
      refine ⟨?_, hnr⟩
      rintro ⟨-, hxce⟩
      exact absurd (le_trans (le_trans hb.1 hx1) hxce) (not_le.mpr hce)
    · rename_i hce
      split at hx
      · rename_i hte
        split at hx
        · rcases hx with ⟨r, hr, hx1, hx2⟩
          rcases List.mem_singleton.mp hr with rfl
          rw [covers_cons, not_or]
          constructor
          · rintro ⟨hcsx, -⟩
            exact absurd (lt_of_le_of_lt (le_trans hcsx hx2) hte) (lt_irrefl _)
          · intro hcr
            obtain ⟨r2, hr2, hr21, hr22⟩ := hcr
            have h1 : cs < x := lt_of_le_of_lt hsce (lt_of_lt_of_le (hsep r2 hr2) hr21)
            have h2 : x < cs := lt_of_le_of_lt hx2 hte
            exact absurd (lt_trans h1 h2) (lt_irrefl _)
        · exact absurd hx (covers_nil x)
      · rename_i hte
        rcases covers_append.mp hx with hl | hrr
        · have hxgap : x ≤ XNum.xpred cs ∧ cur ≤ x := by
            split at hl
            · rcases hl with ⟨r, hr, h1, h2⟩
              rcases List.mem_singleton.mp hr with rfl
              exact ⟨h2, h1⟩
            · exact absurd hl (covers_nil x)
          have hxlt : x < cs := lt_of_le_of_lt hxgap.1 (XNum.xpred_lt_of_isFin hcsF)
          rw [covers_cons, not_or]
          constructor
          · rintro ⟨hcsx, -⟩
            exact absurd hxlt (not_lt.mpr hcsx)
          · intro hcr
            obtain ⟨r2, hr2, hr21, hr22⟩ := hcr
            have : ce < r2.1 := hsep r2 hr2
            have : x < r2.1 := lt_of_lt_of_le hxlt (le_trans hsce (le_of_lt this))
            exact absurd hr21 (not_le.mpr this)
        · have hnr := ih hfin2 hch2 hrr
          obtain ⟨r, hr, hx1, hx2⟩ := hrr
          have hb := subtractOne_mem hr
          have hxgt : ce < x :=
            lt_of_lt_of_le (XNum.lt_xsucc_of_isFin hceF) (le_trans hb.1 hx1)
          rw [covers_cons, not_or]
          refine ⟨?_, hnr⟩
          rintro ⟨-, hxce⟩
          exact absurd hxgt (not_lt.mpr hxce)

theorem subtractOne_eq_nil {C : List TimestampRange}
    (hfin : ∀ r ∈ C, r.1.isFin = true ∧ r.2.isFin = true ∧ r.1 ≤ r.2)
    (hch : List.Chain' (fun a b : TimestampRange => a.2 < b.1) C) {cur te : XNum}
    (hcov : ∀ x, cur ≤ x → x ≤ te → covers C x) : subtractOne cur te C = [] := by
  induction C generalizing cur with
  | nil =>
    simp only [subtractOne]
    split
    · rename_i hle
      exact absurd (hcov cur (le_refl _) hle) (covers_nil cur)
    · rfl
  | cons c rest ih =>
    obtain ⟨cs, ce⟩ := c
    obtain ⟨hcsF, hceF, hsce⟩ := hfin (cs, ce) (List.mem_cons_self _ _)
    have hfin2 : ∀ r ∈ rest, r.1.isFin = true ∧ r.2.isFin = true ∧ r.1 ≤ r.2 :=
      fun r h => hfin r (List.mem_cons_of_mem _ h)
    have hsep : ∀ r ∈ rest, ce < r.1 :=
      chain_sep hch (fun r h => (hfin2 r h).2.2)
    have hch2 : List.Chain' (fun a b : TimestampRange => a.2 < b.1) rest :=
      (List.chain'_cons'.mp hch).2
    simp only [subtractOne]
    split
    · rename_i hce
      refine ih hfin2 hch2 (fun x h1 h2 => ?_)
      rcases covers_cons.mp (hcov x h1 h2) with ⟨-, hxce⟩ | h
      · exact absurd (lt_of_lt_of_le hce (le_trans h1 hxce)) (lt_irrefl _)
      · exact h
    · rename_i hce
      split
      · rename_i hte
        split
        · rename_i hle
          exfalso
          rcases covers_cons.mp (hcov cur (le_refl _) hle) with ⟨hcs, -⟩ | h
          · exact absurd (lt_of_le_of_lt (le_trans hcs hle) hte) (lt_irrefl _)
          · obtain ⟨r2, hr2, hr21, -⟩ := h
            have h1 : cs < cur := lt_of_le_of_lt hsce (lt_of_lt_of_le (hsep r2 hr2) hr21)
            have h2 : cur < cs := lt_of_le_of_lt hle hte
            exact absurd (lt_trans h1 h2) (lt_irrefl _)
        · rfl
      · rename_i hte
        have hcurce : cur ≤ ce := not_lt.mp hce
        have hgap : ¬ (cur ≤ XNum.xpred cs) := by
          intro hg
          rcases le_or_lt cur te with hle | hgt
          · rcases covers_cons.mp (hcov cur (le_refl _) hle) with ⟨hcs, -⟩ | h
            · exact absurd (lt_of_le_of_lt hg (XNum.xpred_lt_of_isFin hcsF))
                (not_lt.mpr hcs)
            · obtain ⟨r2, hr2, hr21, -⟩ := h
              exact absurd (lt_of_le_of_lt hcurce (hsep r2 hr2)) (not_lt.mpr hr21)
          · have hcste : cs ≤ te := not_lt.mp hte
            have : cur < cs := lt_of_le_of_lt hg (XNum.xpred_lt_of_isFin hcsF)
            exact absurd (lt_of_le_of_lt hcste (lt_trans hgt this)) (lt_irrefl _)
        rw [if_neg hgap, List.nil_append]
        refine ih hfin2 hch2 (fun x h1 h2 => ?_)
        have hx1 : cur ≤ x := le_trans hcurce (le_trans (XNum.le_xsucc ce) h1)
        rcases covers_cons.mp (hcov x hx1 h2) with ⟨-, hxce⟩ | h
        · exact absurd (lt_of_lt_of_le (XNum.lt_xsucc_of_isFin hceF) (le_trans h1 hxce))
            (lt_irrefl _)
        · exact h

theorem subtractRanges_mem {T C : List TimestampRange} {r : TimestampRange}
    (hr : r ∈ subtractRanges T C) : ∃ t ∈ T, t.1 ≤ r.1 ∧ r.1 ≤ r.2 ∧ r.2 ≤ t.2 := by
  obtain ⟨t, ht, hin⟩ := List.mem_flatMap.mp hr
  obtain ⟨h1, h2, h3⟩ := subtractOne_mem hin
  exact ⟨t, ht, h1, h2, h3⟩

theorem subtractRanges_se {T C : List TimestampRange} :
    ∀ r ∈ subtractRanges T C, r.1 ≤ r.2 := by
  intro r hr
  obtain ⟨t, -, -, h, -⟩ := subtractRanges_mem hr
  exact h

theorem covers_subtractRanges {T C : List TimestampRange}
    (hfin : ∀ r ∈ C, r.1.isFin = true ∧ r.2.isFin = true ∧ r.1 ≤ r.2)
    (hch : List.Chain' (fun a b : TimestampRange => a.2 < b.1) C) {x : XNum} :
    covers (subtractRanges T C) x ↔ covers T x ∧ ¬ covers C x := by
  constructor
  · rintro ⟨r, hr, hx1, hx2⟩
    obtain ⟨t, ht, hin⟩ := List.mem_flatMap.mp hr
    obtain ⟨h1, h2, h3⟩ := subtractOne_mem hin
    refine ⟨⟨t, ht, le_trans h1 hx1, le_trans hx2 h3⟩, ?_⟩
    exact subtractOne_sound hfin hch ⟨r, hin, hx1, hx2⟩
  · rintro ⟨⟨t, ht, h1, h2⟩, hnc⟩
    have := subtractOne_covers h1 h2 hnc
    obtain ⟨r, hr, hrx⟩ := this
    exact ⟨r, List.mem_flatMap.mpr ⟨t, ht, hr⟩, hrx⟩

theorem subtractRanges_eq_nil {T C : List TimestampRange}
    (hfin : ∀ r ∈ C, r.1.isFin = true ∧ r.2.isFin = true ∧ r.1 ≤ r.2)
    (hch : List.Chain' (fun a b : TimestampRange => a.2 < b.1) C)
    (hcov : ∀ x, covers T x → covers C x) : subtractRanges T C = [] := by
  induction T with
  | nil => rfl
  | cons t ts ih =>
    show subtractOne t.1 t.2 C ++ subtractRanges ts C = []
    rw [subtractOne_eq_nil hfin hch
        (fun x h1 h2 => hcov x ⟨t, List.mem_cons_self _ _, h1, h2⟩),
      List.nil_append]
    exact ih (fun x h => hcov x (by
      obtain ⟨r, hr, h1, h2⟩ := h
      exact ⟨r, List.mem_cons_of_mem _ hr, h1, h2⟩))

theorem mergeInto_covers {l : List TimestampRange} {r1 : TimestampRange}
    (hs : List.Sorted rangeStartLe (r1 :: l)) {x : XNum} :
    covers (mergeInto r1 l) x ↔ covers (r1 :: l) x := by
  induction l generalizing r1 with
  | nil => simp [mergeInto]
  | cons r2 rest ih =>
    have hs1 := List.sorted_cons.mp hs
    have hs2 := List.sorted_cons.mp hs1.2
    simp only [mergeInto]
    split
    · rename_i hif
      have hsm : List.Sorted rangeStartLe ((r1.1, max r1.2 r2.2) :: rest) :=
        List.sorted_cons.mpr
          ⟨fun b hb => hs1.1 b (List.mem_cons_of_mem _ hb), hs2.2⟩
      rw [ih hsm]
      constructor
      · intro h
        rcases covers_cons.mp h with ⟨ha, hb⟩ | h2
        · rcases le_or_lt x r1.2 with h1 | h1
          · exact covers_cons.mpr (Or.inl ⟨ha, h1⟩)
          · rcases le_max_iff.mp hb with h2 | h2
            · exact absurd h2 (not_le.mpr h1)
            · exact covers_cons.mpr (Or.inr (covers_cons.mpr
                (Or.inl ⟨le_of_lt (lt_of_le_of_lt hif h1), h2⟩)))
        · exact covers_cons.mpr (Or.inr (covers_cons.mpr (Or.inr h2)))
      · intro h
        rcases covers_cons.mp h with ⟨ha, hb⟩ | h2
        · exact covers_cons.mpr (Or.inl ⟨ha, le_trans hb (le_max_left _ _)⟩)
        · rcases covers_cons.mp h2 with ⟨ha, hb⟩ | h3
          · exact covers_cons.mpr (Or.inl
              ⟨le_trans (hs1.1 r2 (List.mem_cons_self _ _)) ha,
                le_trans hb (le_max_right _ _)⟩)
          · exact covers_cons.mpr (Or.inr h3)
    · rename_i hif
      rw [covers_cons, covers_cons, ih hs1.2, covers_cons]

theorem mergeInto_head_start (l : List TimestampRange) (r1 : TimestampRange) :
    ∃ e tl, mergeInto r1 l = (r1.1, e) :: tl := by
  induction l generalizing r1 with
  | nil => exact ⟨r1.2, [], by simp [mergeInto]⟩
  | cons r2 rest ih =>
    simp only [mergeInto]
    split
    · obtain ⟨e, tl, he⟩ := ih (r1.1, max r1.2 r2.2)
      exact ⟨e, tl, he⟩
    · exact ⟨r1.2, mergeInto r2 rest, rfl⟩

theorem mergeInto_chain (l : List TimestampRange) (r1 : TimestampRange) :
    List.Chain' (fun a b : TimestampRange => a.2 < b.1) (mergeInto r1 l) := by
  induction l generalizing r1 with
  | nil => simp [mergeInto]
  | cons r2 rest ih =>
    simp only [mergeInto]
    split
    · exact ih (r1.1, max r1.2 r2.2)
    · rename_i hif
      obtain ⟨e, tl, he⟩ := mergeInto_head_start rest r2
      rw [he]
      have := ih r2
      rw [he] at this
      exact List.chain'_cons.mpr ⟨not_le.mp hif, this⟩

theorem mergeInto_se {l : List TimestampRange} {r1 : TimestampRange}
    (h1 : r1.1 ≤ r1.2) (h : ∀ r ∈ l, r.1 ≤ r.2) :
    ∀ r ∈ mergeInto r1 l, r.1 ≤ r.2 := by
  induction l generalizing r1 with
  | nil =>
    intro r hr
    rcases List.mem_singleton.mp hr with rfl
    exact h1
  | cons r2 rest ih =>
    simp only [mergeInto]
    split
    · exact ih (le_trans h1 (le_max_left _ _))
        (fun q hq => h q (List.mem_cons_of_mem _ hq))
    · intro r hr
      rcases List.mem_cons.mp hr with rfl | hr2
      · exact h1
      · exact ih (h r2 (List.mem_cons_self _ _))
          (fun q hq => h q (List.mem_cons_of_mem _ hq)) r hr2

theorem mergeInto_isFin {l : List TimestampRange} {r1 : TimestampRange}
    (h1 : r1.1.isFin = true ∧ r1.2.isFin = true)
    (h : ∀ r ∈ l, r.1.isFin = true ∧ r.2.isFin = true) :
    ∀ r ∈ mergeInto r1 l, r.1.isFin = true ∧ r.2.isFin = true := by
  induction l generalizing r1 with
  | nil =>
    intro r hr
    rcases List.mem_singleton.mp hr with rfl
    exact h1
  | cons r2 rest ih =>
    simp only [mergeInto]
    split
    · refine ih ⟨h1.1, ?_⟩ (fun q hq => h q (List.mem_cons_of_mem _ hq))
      rcases max_choice r1.2 r2.2 with hm | hm <;> rw [hm]
      · exact h1.2
      · exact (h r2 (List.mem_cons_self _ _)).2
    · intro r hr
      rcases List.mem_cons.mp hr with rfl | hr2
      · exact h1
      · exact ih (h r2 (List.mem_cons_self _ _))
          (fun q hq => h q (List.mem_cons_of_mem _ hq)) r hr2

theorem mergeSortedRanges_covers {l : List TimestampRange}
    (hs : List.Sorted rangeStartLe l) {x : XNum} :
    covers (mergeSortedRanges l) x ↔ covers l x := by
  cases l with
  | nil => simp [mergeSortedRanges]
  | cons r rest => exact mergeInto_covers hs

theorem mergeSortedRanges_chain (l : List TimestampRange) :
    List.Chain' (fun a b : TimestampRange => a.2 < b.1) (mergeSortedRanges l) := by
  cases l with
  | nil => simp [mergeSortedRanges]
  | cons r rest => exact mergeInto_chain rest r

theorem mergeSortedRanges_se {l : List TimestampRange} (h : ∀ r ∈ l, r.1 ≤ r.2) :
    ∀ r ∈ mergeSortedRanges l, r.1 ≤ r.2 := by
  cases l with
  | nil => simp [mergeSortedRanges]
  | cons r rest =>
    exact mergeInto_se (h r (List.mem_cons_self _ _))
      (fun q hq => h q (List.mem_cons_of_mem _ hq))

theorem mergeSortedRanges_isFin {l : List TimestampRange}
    (h : ∀ r ∈ l, r.1.isFin = true ∧ r.2.isFin = true) :
    ∀ r ∈ mergeSortedRanges l, r.1.isFin = true ∧ r.2.isFin = true := by
  cases l with
  | nil => simp [mergeSortedRanges]
  | cons r rest =>
    exact mergeInto_isFin (h r (List.mem_cons_self _ _))
      (fun q hq => h q (List.mem_cons_of_mem _ hq))

theorem covers_compactRanges {l : List TimestampRange} {x : XNum} :
    covers (compactRanges l) x ↔ covers l x :=
  (mergeSortedRanges_covers (List.sorted_insertionSort rangeStartLe l)).trans
    (covers_of_perm (List.perm_insertionSort rangeStartLe l))

theorem compactRanges_inv {l : List TimestampRange}
    (h : ∀ r ∈ l, r.1.isFin = true ∧ r.2.isFin = true ∧ r.1 ≤ r.2) :
    rangesInv (compactRanges l) := by
  have hmem : ∀ r ∈ List.insertionSort rangeStartLe l,
      r.1.isFin = true ∧ r.2.isFin = true ∧ r.1 ≤ r.2 :=
    fun r hr => h r ((List.perm_insertionSort rangeStartLe l).mem_iff.mp hr)
  refine ⟨fun r hr => ?_, mergeSortedRanges_chain _⟩
  have h1 := mergeSortedRanges_isFin (fun q hq => ⟨(hmem q hq).1, (hmem q hq).2.1⟩) r hr
  have h2 := mergeSortedRanges_se (fun q hq => (hmem q hq).2.2) r hr
  exact ⟨h1.1, h1.2, h2⟩

/-- C9: for covered ranges that are disjoint and sorted (the shape `compact`
maintains), `subtractRanges` yields exactly the uncovered parts of the targets:
a timestamp is covered by the result iff it is covered by a target and by no
covered range; every output range is an ordered pair; and Scenario B evaluates
to the specified value, `subtract([[0,100]], [[10,20],[30,40]]) =
[[0,9],[21,29],[41,100]]`, fixing the inclusive 1-unit-gap convention. -/
theorem C9_subtractRanges (T C : List TimestampRange)
    (hfin : ∀ r ∈ C, r.1.isFin = true ∧ r.2.isFin = true ∧ r.1 ≤ r.2)
    (hch : List.Chain' (fun a b : TimestampRange => a.2 < b.1) C) :
    (∀ x, covers (subtractRanges T C) x ↔ covers T x ∧ ¬ covers C x) ∧
      (∀ r ∈ subtractRanges T C, r.1 ≤ r.2) ∧
      subtractRanges [(XNum.fin 0, XNum.fin 100)]
          [(XNum.fin 10, XNum.fin 20), (XNum.fin 30, XNum.fin 40)] =
        [(XNum.fin 0, XNum.fin 9), (XNum.fin 21, XNum.fin 29),
          (XNum.fin 41, XNum.fin 100)] :=
  ⟨fun _ => covers_subtractRanges hfin hch, subtractRanges_se, by decide⟩

/-- C9 witness: the theorem applied to Scenario B's concrete target and
covered lists. -/
theorem C9_subtractRanges_witness :
    (∀ x, covers (subtractRanges [(XNum.fin 0, XNum.fin 100)]
          [(XNum.fin 10, XNum.fin 20), (XNum.fin 30, XNum.fin 40)]) x ↔
        covers [(XNum.fin 0, XNum.fin 100)] x ∧
          ¬ covers [(XNum.fin 10, XNum.fin 20), (XNum.fin 30, XNum.fin 40)] x) ∧
      (∀ r ∈ subtractRanges [(XNum.fin 0, XNum.fin 100)]
          [(XNum.fin 10, XNum.fin 20), (XNum.fin 30, XNum.fin 40)], r.1 ≤ r.2) ∧
      subtractRanges [(XNum.fin 0, XNum.fin 100)]
          [(XNum.fin 10, XNum.fin 20), (XNum.fin 30, XNum.fin 40)] =
        [(XNum.fin 0, XNum.fin 9), (XNum.fin 21, XNum.fin 29),
          (XNum.fin 41, XNum.fin 100)] :=
  C9_subtractRanges [(XNum.fin 0, XNum.fin 100)]
    [(XNum.fin 10, XNum.fin 20), (XNum.fin 30, XNum.fin 40)] (by decide)
    (List.chain'_cons.mpr ⟨by decide, List.chain'_singleton _⟩)

theorem addByKey_ranges_self (key : String) (states : List EntityState)
    (range : TimestampRange) (s : CacheState) :
    (addByKey key states range s).ranges key = compactRanges (s.ranges key ++ [range]) := by
  simp [addByKey]

theorem addByKey_ranges_other {key k2 : String} (h : k2 ≠ key) (states : List EntityState)
    (range : TimestampRange) (s : CacheState) :
    (addByKey key states range s).ranges k2 = s.ranges k2 := by
  simp [addByKey, h]

theorem addByKey_histories_other {key k2 : String} (h : k2 ≠ key)
    (states : List EntityState) (range : TimestampRange) (s : CacheState) :
    (addByKey key states range s).histories k2 = s.histories k2 := by
  simp [addByKey, h]

theorem covers_addByKey_mono {key : String} {states : List EntityState}
    {range : TimestampRange} {s : CacheState} {k2 : String} {x : XNum}
    (h : covers (s.ranges k2) x) :
    covers ((addByKey key states range s).ranges k2) x := by
  by_cases hk : k2 = key
  · subst hk
    rw [addByKey_ranges_self]
    exact covers_compactRanges.mpr (covers_append.mpr (Or.inl h))
  · rw [addByKey_ranges_other hk]
    exact h

theorem covers_addByKey_range {key : String} {states : List EntityState}
    {range : TimestampRange} {s : CacheState} {x : XNum}
    (h1 : range.1 ≤ x) (h2 : x ≤ range.2) :
    covers ((addByKey key states range s).ranges key) x := by
  rw [addByKey_ranges_self]
  exact covers_compactRanges.mpr (covers_append.mpr (Or.inr ⟨range, List.mem_singleton_self _, h1, h2⟩))

theorem rangesInv_addByKey {key : String} {range : TimestampRange} {s : CacheState}
    (hs : rangesInv (s.ranges key))
    (hr : range.1.isFin = true ∧ range.2.isFin = true ∧ range.1 ≤ range.2)
    (states : List EntityState) :
    rangesInv ((addByKey key states range s).ranges key) := by
  rw [addByKey_ranges_self]
  refine compactRanges_inv (fun r hrm => ?_)
  rcases List.mem_append.mp hrm with h | h
  · exact hs.1 r h
  · rcases List.mem_singleton.mp h with rfl
    exact hr

theorem fetchSingleRange_range {adapter : TimestampRange → Except Unit (List EntityState)}
    {now : Int} {g : TimestampRange} {hir : HistoryInRange}
    (h : fetchSingleRange adapter now g = .ok hir) :
    hir.range = (g.1, min g.2 (XNum.fin now)) := by
  simp only [fetchSingleRange] at h
  cases hadp : adapter (XNum.xpred g.1, min g.2 (XNum.fin now)) with
  | error e => rw [hadp] at h; cases h
  | ok hist =>
    rw [hadp] at h
    injection h with h2
    rw [← h2]

theorem covers_runGapsSeq_mono
    {adapter : String → TimestampRange → Except Unit (List EntityState)} {now : Int}
    {key : String} {gaps : List TimestampRange} {s : CacheState} {k2 : String} {x : XNum}
    (h : covers (s.ranges k2) x) :
    covers ((runGapsSeq adapter now key s gaps).ranges k2) x := by
  induction gaps generalizing s with
  | nil => exact h
  | cons g gs ih =>
    simp only [runGapsSeq]
    cases hf : fetchSingleRange (adapter key) now g with
    | error e => exact h
    | ok hir => exact ih (covers_addByKey_mono h)

theorem runGapsSeq_ranges_other
    {adapter : String → TimestampRange → Except Unit (List EntityState)} {now : Int}
    {key : String} {gaps : List TimestampRange} {s : CacheState} {k2 : String}
    (h : k2 ≠ key) :
    (runGapsSeq adapter now key s gaps).ranges k2 = s.ranges k2 := by
  induction gaps generalizing s with
  | nil => rfl
  | cons g gs ih =>
    simp only [runGapsSeq]
    cases hf : fetchSingleRange (adapter key) now g with
    | error e => rfl
    | ok hir => rw [ih, addByKey_ranges_other h]

theorem covers_runGapsSeq_gap
    {adapter : String → TimestampRange → Except Unit (List EntityState)} {now : Int}
    {key : String} {gaps : List TimestampRange} {s : CacheState}
    (hok : ∀ w, ∃ h, adapter key w = Except.ok h) {g : TimestampRange} (hg : g ∈ gaps)
    {x : XNum} (hx1 : g.1 ≤ x) (hx2 : x ≤ min g.2 (XNum.fin now)) :
    covers ((runGapsSeq adapter now key s gaps).ranges key) x := by
  induction gaps generalizing s with
  | nil => cases hg
  | cons g0 gs ih =>
    simp only [runGapsSeq]
    obtain ⟨hist, hh⟩ := hok (XNum.xpred g0.1, min g0.2 (XNum.fin now))
    have hf : fetchSingleRange (adapter key) now g0 =
        .ok ⟨(g0.1, min g0.2 (XNum.fin now)), markFirstBoundary hist⟩ := by
      simp only [fetchSingleRange, hh]
    rw [hf]
    rcases List.mem_cons.mp hg with rfl | hg2
    · exact covers_runGapsSeq_mono (covers_addByKey_range hx1 hx2)
    · exact ih hg2

theorem rangesInv_runGapsSeq
    {adapter : String → TimestampRange → Except Unit (List EntityState)} {now : Int}
    {key : String} {gaps : List TimestampRange} {s : CacheState}
    (hinv : rangesInv (s.ranges key))
    (hg : ∀ g ∈ gaps, g.1.isFin = true ∧ g.2.isFin = true ∧ g.1 ≤ g.2 ∧
      g.1 ≤ XNum.fin now) :
    rangesInv ((runGapsSeq adapter now key s gaps).ranges key) := by
  induction gaps generalizing s with
  | nil => exact hinv
  | cons g gs ih =>
    simp only [runGapsSeq]
    cases hf : fetchSingleRange (adapter key) now g with
    | error e => exact hinv
    | ok hir =>
      obtain ⟨hgf1, hgf2, hgse, hgnow⟩ := hg g (List.mem_cons_self _ _)
      have hrange := fetchSingleRange_range hf
      have hradd : hir.range.1.isFin = true ∧ hir.range.2.isFin = true ∧
          hir.range.1 ≤ hir.range.2 := by
        rw [hrange]
        refine ⟨hgf1, ?_, le_min hgse hgnow⟩
        rcases min_choice g.2 (XNum.fin now) with hm | hm <;> rw [hm]
        · exact hgf2
        · rfl
      exact ih (rangesInv_addByKey hinv hradd _)
        (fun g2 h2 => hg g2 (List.mem_cons_of_mem _ h2))

theorem foldPlans_mono
    {adapter : String → TimestampRange → Except Unit (List EntityState)} {now : Int}
    {plans : List (String × List TimestampRange)} {s : CacheState} {k : String} {x : XNum}
    (h : covers (s.ranges k) x) :
    covers ((plans.foldl (fun st p => runGapsSeq adapter now p.1 st p.2) s).ranges k) x := by
  induction plans generalizing s with
  | nil => exact h
  | cons p ps ih => exact ih (covers_runGapsSeq_mono h)

theorem foldPlans_inv
    {adapter : String → TimestampRange → Except Unit (List EntityState)} {now : Int}
    {plans : List (String × List TimestampRange)} {s : CacheState} {k : String}
    (hinv : rangesInv (s.ranges k))
    (hg : ∀ p ∈ plans, p.1 = k → ∀ g ∈ p.2, g.1.isFin = true ∧ g.2.isFin = true ∧
      g.1 ≤ g.2 ∧ g.1 ≤ XNum.fin now) :
    rangesInv
      ((plans.foldl (fun st p => runGapsSeq adapter now p.1 st p.2) s).ranges k) := by
  induction plans generalizing s with
  | nil => exact hinv
  | cons p ps ih =>
    obtain ⟨k1, gaps⟩ := p
    simp only [List.foldl_cons]
    by_cases hpk : k1 = k
    · subst hpk
      exact ih (rangesInv_runGapsSeq hinv (hg (k1, gaps) (List.mem_cons_self _ _) rfl))
        (fun q hq => hg q (List.mem_cons_of_mem _ hq))
    · refine ih ?_ (fun q hq => hg q (List.mem_cons_of_mem _ hq))
      rw [runGapsSeq_ranges_other (fun hh => hpk hh.symm)]
      exact hinv

theorem foldPlans_gap
    {adapter : String → TimestampRange → Except Unit (List EntityState)} {now : Int}
    {plans : List (String × List TimestampRange)} {s : CacheState} {k : String}
    {gaps : List TimestampRange}
    (hok : ∀ w, ∃ h, adapter k w = Except.ok h) (hp : (k, gaps) ∈ plans)
    {g : TimestampRange} (hg : g ∈ gaps) {x : XNum} (hx1 : g.1 ≤ x)
    (hx2 : x ≤ min g.2 (XNum.fin now)) :
    covers ((plans.foldl (fun st p => runGapsSeq adapter now p.1 st p.2) s).ranges k) x := by
  induction plans generalizing s with
  | nil => cases hp
  | cons p ps ih =>
    rcases List.mem_cons.mp hp with heq | hp2
    · subst heq
      simp only [List.foldl_cons]
      exact foldPlans_mono (covers_runGapsSeq_gap hok hg hx1 hx2)
    · exact ih hp2

theorem updateSeq_covered
    (adapter : String → TimestampRange → Except Unit (List EntityState))
    (a b now : Int) (entities : List EntityConfig) (s : CacheState)
    (e : EntityConfig) (k : String) (he : e ∈ entities) (hk : getEntityKey e = .ok k)
    (hok : ∀ k2 w, ∃ h, adapter k2 w = Except.ok h) (hb : b ≤ now)
    (hinv : rangesInv (s.ranges k)) :
    subtractRanges [(XNum.fin a, XNum.fin b)]
      ((updateSeq adapter (a, b) false entities now s).ranges k) = [] := by
  have hupdate : updateSeq adapter (a, b) false entities now s =
      (entities.filterMap (fun e2 =>
        match getEntityKey e2 with
        | .ok k2 => some (k2, subtractRanges [(XNum.fin a, XNum.fin b)] (s.ranges k2))
        | .error _ => none)).foldl
        (fun st p => runGapsSeq adapter now p.1 st p.2) s := by
    simp [updateSeq]
  have hgaps0 : subtractRanges [(XNum.fin a, XNum.fin b)] (s.ranges k) =
      subtractOne (XNum.fin a) (XNum.fin b) (s.ranges k) := by
    simp [subtractRanges]
  have hmem : (k, subtractRanges [(XNum.fin a, XNum.fin b)] (s.ranges k)) ∈
      entities.filterMap (fun e2 =>
        match getEntityKey e2 with
        | .ok k2 => some (k2, subtractRanges [(XNum.fin a, XNum.fin b)] (s.ranges k2))
        | .error _ => none) := by
    refine List.mem_filterMap.mpr ⟨e, he, ?_⟩
    rw [hk]
  have hplan_gaps : ∀ p ∈ entities.filterMap (fun e2 =>
      match getEntityKey e2 with
      | .ok k2 => some (k2, subtractRanges [(XNum.fin a, XNum.fin b)] (s.ranges k2))
      | .error _ => none), p.1 = k →
      p.2 = subtractRanges [(XNum.fin a, XNum.fin b)] (s.ranges k) := by
    intro p hp hp1
    obtain ⟨e2, he2, hsome⟩ := List.mem_filterMap.mp hp
    cases hke2 : getEntityKey e2 with
    | error msg => rw [hke2] at hsome; cases hsome
    | ok k2 =>
      rw [hke2] at hsome
      injection hsome with h2
      rw [← h2] at hp1 ⊢
      simp only at hp1 ⊢
      rw [hp1]
  have hCfins : ∀ r ∈ s.ranges k, r.1.isFin = true ∧ r.2.isFin = true :=
    fun r h => ⟨(hinv.1 r h).1, (hinv.1 r h).2.1⟩
  have hg0 : ∀ g ∈ subtractRanges [(XNum.fin a, XNum.fin b)] (s.ranges k),
      g.1.isFin = true ∧ g.2.isFin = true ∧ g.1 ≤ g.2 ∧ g.1 ≤ XNum.fin now := by
    intro g hg
    obtain ⟨t, ht, ht1, hse, ht2⟩ := subtractRanges_mem hg
    rcases List.mem_singleton.mp ht with rfl
    have hfin := subtractOne_isFin hCfins (show (XNum.fin a).isFin = true from rfl)
      (show (XNum.fin b).isFin = true from rfl) g (hgaps0 ▸ hg)
    refine ⟨hfin.1, hfin.2, hse, ?_⟩
    exact le_trans hse (le_trans ht2 ((XNum.fin_le_fin b now).mpr hb))
  rw [hupdate]
  have hfinal := @foldPlans_inv adapter now
    (entities.filterMap (fun e2 =>
      match getEntityKey e2 with
      | .ok k2 => some (k2, subtractRanges [(XNum.fin a, XNum.fin b)] (s.ranges k2))
      | .error _ => none)) s k hinv
    (fun p hp hp1 => by rw [hplan_gaps p hp hp1]; exact hg0)
  refine subtractRanges_eq_nil hfinal.1 hfinal.2 (fun x hx => ?_)
  obtain ⟨t, ht, h1, h2⟩ := hx
  rcases List.mem_singleton.mp ht with rfl
  by_cases hc : covers (s.ranges k) x
  · exact foldPlans_mono hc
  · have hcg : covers (subtractRanges [(XNum.fin a, XNum.fin b)] (s.ranges k)) x := by
      rw [hgaps0]
      exact subtractOne_covers h1 h2 hc
    obtain ⟨g, hgm, hg1, hg2⟩ := hcg
    exact foldPlans_gap (hok k) hmem hgm hg1
      (le_min hg2 (le_trans h2 ((XNum.fin_le_fin b now).mpr hb)))

/-- C6 (amended): when every fetch of the first `update` succeeds and the
window does not extend beyond the wall clock at fetch time (range.2 ≤ now),
a second `update` over the same range computes `subtract([range],
CoveredRanges) = []` for every listed series, hence performs zero fetches. -/
theorem C6_second_update_no_fetch
    (adapter : String → TimestampRange → Except Unit (List EntityState))
    (a b now : Int) (entities : List EntityConfig) (s : CacheState)
    (e : EntityConfig) (k : String) (he : e ∈ entities) (hk : getEntityKey e = .ok k)
    (hok : ∀ k2 w, ∃ h, adapter k2 w = Except.ok h) (hb : b ≤ now)
    (hinv : rangesInv (s.ranges k)) :
    subtractRanges [(XNum.fin a, XNum.fin b)]
      ((updateSeq adapter (a, b) false entities now s).ranges k) = [] :=
  updateSeq_covered adapter a b now entities s e k he hk hok hb hinv

/-- C6 witness: the theorem applied to a fresh cache, window [0, 10], wall
clock 20 and one plain series. -/
theorem C6_witness :
    subtractRanges [(XNum.fin 0, XNum.fin 10)]
      ((updateSeq (fun _ _ => Except.ok []) (0, 10) false [EntityConfig.stateCfg "s"] 20
          initState).ranges "s") = [] :=
  C6_second_update_no_fetch (fun _ _ => Except.ok []) 0 10 20 [EntityConfig.stateCfg "s"]
    initState (EntityConfig.stateCfg "s") "s" (List.mem_singleton_self _) rfl
    (fun _ _ => ⟨[], rfl⟩) (by decide) (by simp [initState, rangesInv])

/-- C6 counterexample: with wall clock 150, `update([100,200])` on a fresh
cache records covered ranges [[100,150]] only — the fetch is clamped to `now` —
so the second call over the same range computes gaps [[151,200]] ≠ [] and
fetches again, refuting the unconditional claim. -/
theorem C6_counterexample :
    subtractRanges [(XNum.fin 100, XNum.fin 200)]
        ((updateSeq (fun _ _ => Except.ok []) (100, 200) false
            [EntityConfig.stateCfg "s"] 150 initState).ranges "s") =
      [(XNum.fin 151, XNum.fin 200)] ∧
    subtractRanges [(XNum.fin 100, XNum.fin 200)]
        ((updateSeq (fun _ _ => Except.ok []) (100, 200) false
            [EntityConfig.stateCfg "s"] 150 initState).ranges "s") ≠ [] := by
  constructor
  · decide
  · decide

theorem compactRanges_se {l : List TimestampRange} (h : ∀ r ∈ l, r.1 ≤ r.2) :
    ∀ r ∈ compactRanges l, r.1 ≤ r.2 :=
  mergeSortedRanges_se
    (fun r hr => h r ((List.perm_insertionSort rangeStartLe l).mem_iff.mp hr))

theorem rangesSE_addByKey {key : String} {states : List EntityState}
    {range : TimestampRange} {s : CacheState}
    (h : ∀ k, ∀ r ∈ s.ranges k, r.1 ≤ r.2) (hr : range.1 ≤ range.2) :
    ∀ k, ∀ r ∈ (addByKey key states range s).ranges k, r.1 ≤ r.2 := by
  intro k r hrm
  by_cases hk : k = key
  · subst hk
    rw [addByKey_ranges_self] at hrm
    refine compactRanges_se (fun q hq => ?_) r hrm
    rcases List.mem_append.mp hq with h2 | h2
    · exact h k q h2
    · rcases List.mem_singleton.mp h2 with rfl
      exact hr
  · rw [addByKey_ranges_other hk] at hrm
    exact h k r hrm

theorem rangesSE_runGapsSeq
    {adapter : String → TimestampRange → Except Unit (List EntityState)} {now : Int}
    {key : String} {gaps : List TimestampRange} {s : CacheState}
    (h : ∀ k, ∀ r ∈ s.ranges k, r.1 ≤ r.2)
    (hg : ∀ g ∈ gaps, g.1 ≤ g.2 ∧ g.1 ≤ XNum.fin now) :
    ∀ k, ∀ r ∈ (runGapsSeq adapter now key s gaps).ranges k, r.1 ≤ r.2 := by
  induction gaps generalizing s with
  | nil => exact h
  | cons g gs ih =>
    simp only [runGapsSeq]
    cases hf : fetchSingleRange (adapter key) now g with
    | error e => exact h
    | ok hir =>
      refine ih (rangesSE_addByKey h ?_) (fun q hq => hg q (List.mem_cons_of_mem _ hq))
      rw [fetchSingleRange_range hf]
      exact le_min (hg g (List.mem_cons_self _ _)).1 (hg g (List.mem_cons_self _ _)).2

theorem rangesSE_trim {r0 r1 : Int} {s : CacheState} :
    ∀ k, ∀ r ∈ (rmOutsideState r0 r1 s).ranges k, r.1 ≤ r.2 := by
  intro k r hrm
  exact subtractRanges_se r hrm

theorem rangesSE_foldPlans
    {adapter : String → TimestampRange → Except Unit (List EntityState)} {now : Int}
    {plans : List (String × List TimestampRange)} {s : CacheState}
    (h : ∀ k, ∀ r ∈ s.ranges k, r.1 ≤ r.2)
    (hp : ∀ p ∈ plans, ∀ g ∈ p.2, g.1 ≤ g.2 ∧ g.1 ≤ XNum.fin now) :
    ∀ k, ∀ r ∈ ((plans.foldl (fun st p => runGapsSeq adapter now p.1 st p.2) s).ranges k),
      r.1 ≤ r.2 := by
  induction plans generalizing s with
  | nil => exact h
  | cons p ps ih =>
    simp only [List.foldl_cons]
    exact ih (rangesSE_runGapsSeq h (hp p (List.mem_cons_self _ _)))
      (fun q hq => hp q (List.mem_cons_of_mem _ hq))

theorem rangesSE_updateSeq
    {adapter : String → TimestampRange → Except Unit (List EntityState)}
    {a b : Int} {ro : Bool} {entities : List EntityConfig} {now : Int} {s : CacheState}
    (h : ∀ k, ∀ r ∈ s.ranges k, r.1 ≤ r.2) (hb : b ≤ now) :
    ∀ k, ∀ r ∈ (updateSeq adapter (a, b) ro entities now s).ranges k, r.1 ≤ r.2 := by
  simp only [updateSeq]
  have h2 : ∀ k, ∀ r ∈ (if ro then rmOutsideState a b s else s).ranges k, r.1 ≤ r.2 := by
    cases ro
    · simpa using h
    · simpa using @rangesSE_trim a b s
  refine rangesSE_foldPlans h2 ?_
  intro p hp g hg
  obtain ⟨e2, he2, hsome⟩ := List.mem_filterMap.mp hp
  cases hke : getEntityKey e2 with
  | error m => rw [hke] at hsome; cases hsome
  | ok k2 =>
    rw [hke] at hsome
    injection hsome with heq
    rw [← heq] at hg
    simp only at hg
    obtain ⟨t, ht, h1, hse, h2b⟩ := subtractRanges_mem hg
    rcases List.mem_singleton.mp ht with rfl
    exact ⟨hse, le_trans hse (le_trans h2b ((XNum.fin_le_fin b now).mpr hb))⟩

theorem rangesSE_runOps (adapter : String → TimestampRange → Except Unit (List EntityState)) :
    ∀ (ops : List CacheOp) (s : CacheState), (∀ op ∈ ops, opOrdered op) →
      (∀ k, ∀ r ∈ s.ranges k, r.1 ≤ r.2) →
      ∀ k, ∀ r ∈ (runOps adapter s ops).ranges k, r.1 ≤ r.2 := by
  intro ops
  induction ops with
  | nil => intro s _ hs; exact hs
  | cons op rest ih =>
    intro s hops hs
    refine ih _ (fun op2 h2 => hops op2 (List.mem_cons_of_mem _ h2)) ?_
    cases op with
    | addCall e st r =>
      have hr : r.1 ≤ r.2 := hops _ (List.mem_cons_self _ _)
      show ∀ k, ∀ q ∈ (add e st r s).ranges k, q.1 ≤ q.2
      unfold add
      cases getEntityKey e with
      | ok key => exact rangesSE_addByKey hs hr
      | error m => exact hs
    | updateCall r ro en now =>
      have hb : r.2 ≤ now := hops _ (List.mem_cons_self _ _)
      obtain ⟨a, b⟩ := r
      exact rangesSE_updateSeq hs hb
    | trimCall r => exact fun k q hq => subtractRanges_se q hq
    | clearCall => exact fun k q hq => absurd hq (List.not_mem_nil q)

/-- C7 (amended): every `TimestampRange` stored in any series's covered ranges
is an ordered pair (start ≤ end) in every state reachable by
add/update/trim/clearCache, provided every range passed to `add` is ordered and
no `update` requests a window ending after the wall clock (range.2 ≤ now). An
`update` whose window starts after `now` stores a reversed pair (see the
counterexample), because the covered range is clamped to
`[gapStart, min(gapEnd, now)]`. -/
theorem C7_ranges_ordered
    (adapter : String → TimestampRange → Except Unit (List EntityState))
    (ops : List CacheOp) (hops : ∀ op ∈ ops, opOrdered op) :
    ∀ k, ∀ r ∈ (runOps adapter initState ops).ranges k, r.1 ≤ r.2 :=
  rangesSE_runOps adapter ops initState hops
    (fun _ r hr => absurd hr (List.not_mem_nil r))

/-- C7 witness: the theorem applied to a concrete add/update/trim sequence. -/
theorem C7_witness :
    (∀ op ∈ [CacheOp.addCall (EntityConfig.stateCfg "s") [] (XNum.fin 1, XNum.fin 5),
        CacheOp.updateCall (0, 10) false [EntityConfig.stateCfg "s"] 20,
        CacheOp.trimCall (2, 8)], opOrdered op) ∧
      ∀ k, ∀ r ∈ (runOps (fun _ _ => Except.ok []) initState
        [CacheOp.addCall (EntityConfig.stateCfg "s") [] (XNum.fin 1, XNum.fin 5),
          CacheOp.updateCall (0, 10) false [EntityConfig.stateCfg "s"] 20,
          CacheOp.trimCall (2, 8)]).ranges k, r.1 ≤ r.2 :=
  ⟨by decide, C7_ranges_ordered (fun _ _ => Except.ok []) _ (by decide)⟩

/-- C7 counterexample: an `update` over window [100, 200] issued while the wall
clock reads 50 stores the reversed pair (100, 50) in the series's covered
ranges, refuting the unconditional claim. -/
theorem C7_counterexample :
    (runOps (fun _ _ => Except.ok []) initState
        [CacheOp.updateCall (100, 200) false [EntityConfig.stateCfg "s"] 50]).ranges "s" =
      [(XNum.fin 100, XNum.fin 50)] ∧
    ¬ ((XNum.fin 100 : XNum) ≤ XNum.fin 50) := by
  constructor
  · decide
  · decide

theorem mergeHistory_nil {h : List EntityState} (hi : histInv h) : mergeHistory h [] = h := by
  unfold mergeHistory
  rw [List.append_nil]
  have hsorted : List.Sorted tsLe h := hi.1.imp (fun hab => le_of_lt hab)
  rw [List.Sorted.insertionSort_eq hsorted]
  cases h with
  | nil => rfl
  | cons x xs =>
    have htail : ∀ y ∈ xs, y.fake_boundary_datapoint = false := fun y hy => hi.2 y hy
    simp only [boundaryFilter]
    rw [List.filter_eq_self.mpr (fun y hy => by
      show (!y.fake_boundary_datapoint) = true
      rw [htail y hy]
      rfl)]
    simp only [dedupTimestamps]
    have hhead := List.pairwise_cons.mp hi.1
    exact congrArg (x :: ·) (dedupAfter_eq_self (fun z hz => hhead.1 z hz) hhead.2)

/-- C10 (amended): on any series state satisfying the maintained history
invariant (strictly sorted, boundary flag at most at index 0 — the shape every
add-reachable state has), `add` with an empty observation list leaves every
observation sequence unchanged while still merging the range into the key's
covered ranges (and touching no other key's ranges); consequently an `update`
whose fetches all succeed with zero observations still records coverage, and a
later update over the same window — when that window does not extend beyond the
wall clock — computes no gaps for the series. -/
theorem C10_add_empty_frame (s : CacheState) (k : String) (range : TimestampRange)
    (hi : histInv (s.histories k))
    (a b now : Int) (entities : List EntityConfig) (e : EntityConfig)
    (he : e ∈ entities) (hk : getEntityKey e = .ok k) (hb : b ≤ now)
    (hinv : rangesInv (s.ranges k)) :
    ((addByKey k [] range s).histories k = s.histories k ∧
      (∀ k2, k2 ≠ k → (addByKey k [] range s).histories k2 = s.histories k2) ∧
      (addByKey k [] range s).ranges k = compactRanges (s.ranges k ++ [range]) ∧
      (∀ k2, k2 ≠ k → (addByKey k [] range s).ranges k2 = s.ranges k2)) ∧
      subtractRanges [(XNum.fin a, XNum.fin b)]
        ((updateSeq (fun _ _ => Except.ok ([] : List EntityState)) (a, b) false entities
            now s).ranges k) = [] := by
  refine ⟨⟨?_, fun k2 h => addByKey_histories_other h _ _ _,
      addByKey_ranges_self k [] range s, fun k2 h => addByKey_ranges_other h _ _ _⟩,
    updateSeq_covered _ a b now entities s e k he hk (fun _ _ => ⟨[], rfl⟩) hb hinv⟩
  show (addByKey k [] range s).histories k = s.histories k
  simp only [addByKey]
  rw [if_pos trivial]
  exact mergeHistory_nil hi

/-- C10 witness: the theorem applied to the fresh cache, key `s`, range [1, 2]
and a zero-observation update over [0, 5] at wall clock 9. -/
theorem C10_witness :
    ((addByKey "s" [] (XNum.fin 1, XNum.fin 2) initState).histories "s" =
        initState.histories "s" ∧
      (∀ k2, k2 ≠ "s" →
        (addByKey "s" [] (XNum.fin 1, XNum.fin 2) initState).histories k2 =
          initState.histories k2) ∧
      (addByKey "s" [] (XNum.fin 1, XNum.fin 2) initState).ranges "s" =
        compactRanges (initState.ranges "s" ++ [(XNum.fin 1, XNum.fin 2)]) ∧
      (∀ k2, k2 ≠ "s" →
        (addByKey "s" [] (XNum.fin 1, XNum.fin 2) initState).ranges k2 =
          initState.ranges k2)) ∧
      subtractRanges [(XNum.fin 0, XNum.fin 5)]
        ((updateSeq (fun _ _ => Except.ok ([] : List EntityState)) (0, 5) false
            [EntityConfig.stateCfg "s"] 9 initState).ranges "s") = [] :=
  C10_add_empty_frame initState "s" (XNum.fin 1, XNum.fin 2)
    (by simp [histInv, initState]) 0 5 9 [EntityConfig.stateCfg "s"]
    (EntityConfig.stateCfg "s") (List.mem_singleton_self _) rfl (by decide)
    (by simp [initState, rangesInv])

/-- C10 counterexample: on a series state that does not satisfy the maintained
invariant (here an unsorted history, which the claim's unrestricted "for every
series state" includes), `add` with an empty observation list does change the
observation sequence — the merge pipeline re-sorts it. -/
theorem C10_counterexample :
    (add (EntityConfig.stateCfg "k") [] (XNum.fin 0, XNum.fin 1)
        ⟨fun _ => [],
          fun k => if k = "k" then
            [⟨2, "b", false⟩, ⟨1, "a", false⟩] else []⟩).histories "k" =
      [⟨1, "a", false⟩, ⟨2, "b", false⟩] ∧
    (add (EntityConfig.stateCfg "k") [] (XNum.fin 0, XNum.fin 1)
        ⟨fun _ => [],
          fun k => if k = "k" then
            [⟨2, "b", false⟩, ⟨1, "a", false⟩] else []⟩).histories "k" ≠
      [⟨2, "b", false⟩, ⟨1, "a", false⟩] := by
  constructor
  · decide
  · decide

theorem le_foldl_max (l : List Nat) (t : Nat) :
    t ≤ l.foldl max t ∧ ∀ x ∈ l, x ≤ l.foldl max t := by
  induction l generalizing t with
  | nil => simp
  | cons a l ih =>
    obtain ⟨h1, h2⟩ := ih (max t a)
    refine ⟨le_trans (le_max_left t a) h1, ?_⟩
    intro x hx
    rcases List.mem_cons.mp hx with rfl | hx2
    · exact le_trans (le_max_right t x) h1
    · exact h2 x hx2

theorem foldl_min_ge {l : List Nat} {f t : Nat} (h : ∀ x ∈ f :: l, t ≤ x) :
    t ≤ l.foldl min f := by
  induction l generalizing f with
  | nil => exact h f (List.mem_cons_self _ _)
  | cons a l ih =>
    refine @ih (min f a) (fun x hx => ?_)
    rcases List.mem_cons.mp hx with rfl | hx2
    · exact le_min (h f (List.mem_cons_self _ _))
        (h a (List.mem_cons_of_mem _ (List.mem_cons_self _ _)))
    · exact h x (List.mem_cons_of_mem _ (List.mem_cons_of_mem _ hx2))

theorem promiseAllSettle_ge (t : Nat) (outs : List EntityOutcome)
    (h : ∀ o ∈ outs, t ≤ o.settle) : t ≤ promiseAllSettle t outs := by
  unfold promiseAllSettle
  cases hm : (outs.filter (fun o => !o.ok)).map EntityOutcome.settle with
  | nil => exact (le_foldl_max _ t).1
  | cons f fs =>
    refine foldl_min_ge (fun x hx => ?_)
    rw [← hm] at hx
    obtain ⟨o, ho, rfl⟩ := List.mem_map.mp hx
    exact h o (List.mem_of_mem_filter ho)

theorem promiseAllSettle_le_of_allok (t : Nat) (outs : List EntityOutcome)
    (hok : ∀ o ∈ outs, o.ok = true) :
    ∀ o ∈ outs, o.settle ≤ promiseAllSettle t outs := by
  unfold promiseAllSettle
  have hnil : outs.filter (fun o => !o.ok) = [] := by
    rw [List.filter_eq_nil_iff]
    intro o ho
    simp [hok o ho]
  rw [hnil]
  intro o ho
  exact (le_foldl_max _ _).2 _ (List.mem_map_of_mem _ ho)

theorem runGapsT_start_le_settle (oracle : String → TimestampRange → FetchReply)
    (key : String) (now : Int) :
    ∀ (gaps : List TimestampRange) (t : Nat),
      t ≤ (runGapsT oracle key now t gaps).settle := by
  intro gaps
  induction gaps with
  | nil => intro t; exact le_refl t
  | cons g gs ih =>
    intro t
    simp only [runGapsT]
    split
    · exact Nat.le_add_right _ _
    · exact le_trans (Nat.le_add_right t _) (ih _)

theorem runGapsT_events_bounds (oracle : String → TimestampRange → FetchReply)
    (key : String) (now : Int) :
    ∀ (gaps : List TimestampRange) (t : Nat),
      ∀ ev ∈ (runGapsT oracle key now t gaps).events,
        t ≤ ev.time ∧ ev.time ≤ (runGapsT oracle key now t gaps).settle := by
  intro gaps
  induction gaps with
  | nil => intro t ev hev; cases hev
  | cons g gs ih =>
    intro t
    simp only [runGapsT]
    split
    · intro ev hev; cases hev
    · intro ev hev
      rcases List.mem_cons.mp hev with rfl | hev2
      · exact ⟨Nat.le_add_right _ _, runGapsT_start_le_settle oracle key now gs _⟩
      · have := ih _ ev hev2
        exact ⟨le_trans (Nat.le_add_right _ _) this.1, this.2⟩

theorem runGapsT_ok (oracle : String → TimestampRange → FetchReply) (key : String)
    (now : Int) (hok : ∀ w, ∃ h, (oracle key w).result = Except.ok h) :
    ∀ (gaps : List TimestampRange) (t : Nat), (runGapsT oracle key now t gaps).ok = true := by
  intro gaps
  induction gaps with
  | nil => intro t; rfl
  | cons g gs ih =>
    intro t
    simp only [runGapsT]
    split
    · rename_i e heq
      obtain ⟨h2, hh⟩ := hok (fetchWindow g now)
      rw [hh] at heq
      cases heq
    · exact ih _

theorem getEntityKey_ok_of_wellFormed {e : EntityConfig} (h : e.wellFormed = true) :
    ∃ k, getEntityKey e = .ok k := by
  cases e <;> simp_all [EntityConfig.wellFormed, getEntityKey]

theorem runEntityT_settle_ge (oracle : String → TimestampRange → FetchReply)
    (s2 : CacheState) (t : Nat) (u : UpdateSpec) (e : EntityConfig) :
    t ≤ (runEntityT oracle s2 t u e).2.settle := by
  simp only [runEntityT]
  cases hk : getEntityKey e with
  | error m => exact le_refl t
  | ok k => exact runGapsT_start_le_settle oracle k u.now _ t

theorem runEntityT_ok (oracle : String → TimestampRange → FetchReply)
    (s2 : CacheState) (t : Nat) (u : UpdateSpec) (e : EntityConfig)
    (hok : ∀ k w, ∃ h, (oracle k w).result = Except.ok h)
    (hwf : e.wellFormed = true) : (runEntityT oracle s2 t u e).2.ok = true := by
  obtain ⟨k, hk⟩ := getEntityKey_ok_of_wellFormed hwf
  simp only [runEntityT, hk]
  exact runGapsT_ok oracle k u.now (hok k) _ t

theorem runEntityT_events_le (oracle : String → TimestampRange → FetchReply)
    (s2 : CacheState) (t : Nat) (u : UpdateSpec) (e : EntityConfig) :
    ∀ ev ∈ (runEntityT oracle s2 t u e).2.events,
      ev.time ≤ (runEntityT oracle s2 t u e).2.settle := by
  simp only [runEntityT]
  cases hk : getEntityKey e with
  | error m => intro ev hev; cases hev
  | ok k => exact fun ev hev => (runGapsT_events_bounds oracle k u.now _ t ev hev).2

theorem roundSettle_ge (oracle : String → TimestampRange → FetchReply)
    (s2 : CacheState) (t : Nat) (u : UpdateSpec) :
    t ≤ promiseAllSettle t ((u.entities.map (runEntityT oracle s2 t u)).map Prod.snd) := by
  refine promiseAllSettle_ge _ _ (fun o ho => ?_)
  obtain ⟨r, hr, rfl⟩ := List.mem_map.mp ho
  obtain ⟨e, he, rfl⟩ := List.mem_map.mp hr
  exact runEntityT_settle_ge oracle s2 t u e

theorem roundEvents_le (oracle : String → TimestampRange → FetchReply)
    (s2 : CacheState) (t : Nat) (u : UpdateSpec)
    (hok : ∀ k w, ∃ h, (oracle k w).result = Except.ok h)
    (hwf : ∀ e ∈ u.entities, e.wellFormed = true) :
    ∀ ev ∈ ((u.entities.map (runEntityT oracle s2 t u)).map
        (fun r => r.2.events)).flatten,
      ev.time ≤ promiseAllSettle t
        ((u.entities.map (runEntityT oracle s2 t u)).map Prod.snd) := by
  intro ev hev
  obtain ⟨evs, hevs, hin⟩ := List.mem_flatten.mp hev
  obtain ⟨r, hr, rfl⟩ := List.mem_map.mp hevs
  obtain ⟨e, he, rfl⟩ := List.mem_map.mp hr
  refine le_trans (runEntityT_events_le oracle s2 t u e ev hin) ?_
  refine promiseAllSettle_le_of_allok t _ (fun o ho => ?_) _
    (List.mem_map_of_mem _ (List.mem_map_of_mem _ he))
  obtain ⟨r2, hr2, rfl⟩ := List.mem_map.mp ho
  obtain ⟨e2, he2, rfl⟩ := List.mem_map.mp hr2
  exact runEntityT_ok oracle s2 t u e2 hok (hwf e2 he2)

theorem runRound_settle_ge (oracle : String → TimestampRange → FetchReply)
    (s : CacheState) (pending : List TimedEvent) (t : Nat) (u : UpdateSpec) :
    t ≤ (runRound oracle s pending t u).2.2.settle :=
  roundSettle_ge oracle _ t u

theorem runRound_start (oracle : String → TimestampRange → FetchReply)
    (s : CacheState) (pending : List TimedEvent) (t : Nat) (u : UpdateSpec) :
    (runRound oracle s pending t u).2.2.start = t := rfl

theorem runRound_events_le (oracle : String → TimestampRange → FetchReply)
    (s : CacheState) (pending : List TimedEvent) (t : Nat) (u : UpdateSpec)
    (hok : ∀ k w, ∃ h, (oracle k w).result = Except.ok h)
    (hwf : ∀ e ∈ u.entities, e.wellFormed = true) :
    ∀ ev ∈ (runRound oracle s pending t u).2.2.events,
      ev.time ≤ (runRound oracle s pending t u).2.2.settle :=
  roundEvents_le oracle _ t u hok hwf

theorem runTimed_fifo (oracle : String → TimestampRange → FetchReply) :
    ∀ (us : List UpdateSpec) (s : CacheState) (pending : List TimedEvent) (t : Nat),
      (runTimed oracle s pending t us).2.2.length = us.length ∧
      (∀ log ∈ (runTimed oracle s pending t us).2.2, log.start ≤ log.settle) ∧
      List.Chain' (fun a b : RoundLog => b.start = a.settle)
        ((runTimed oracle s pending t us).2.2) ∧
      ∀ log0, ((runTimed oracle s pending t us).2.2).head? = some log0 →
        log0.start = t := by
  intro us
  induction us with
  | nil =>
    intro s pending t
    refine ⟨rfl, ?_, ?_, ?_⟩
    · intro log hlog; cases hlog
    · exact List.chain'_nil
    · intro log0 h; cases h
  | cons u us2 ih =>
    intro s pending t
    obtain ⟨ih1, ih2, ih3, ih4⟩ := ih (runRound oracle s pending t u).1
      (runRound oracle s pending t u).2.1 (runRound oracle s pending t u).2.2.settle
    have hshape : (runTimed oracle s pending t (u :: us2)).2.2 =
        (runRound oracle s pending t u).2.2 ::
          (runTimed oracle (runRound oracle s pending t u).1
            (runRound oracle s pending t u).2.1
            (runRound oracle s pending t u).2.2.settle us2).2.2 := rfl
    rw [hshape]
    refine ⟨by simpa using ih1, ?_, ?_, ?_⟩
    · intro log hlog
      rcases List.mem_cons.mp hlog with rfl | h2
      · rw [runRound_start]
        exact runRound_settle_ge oracle s pending t u
      · exact ih2 log h2
    · refine List.chain'_cons'.mpr ⟨?_, ih3⟩
      intro b hb
      exact ih4 b hb
    · intro log0 h
      injection h with h2
      rw [← h2, runRound_start]

theorem runTimed_events_le (oracle : String → TimestampRange → FetchReply)
    (hok : ∀ k w, ∃ h, (oracle k w).result = Except.ok h) :
    ∀ (us : List UpdateSpec) (s : CacheState) (pending : List TimedEvent) (t : Nat),
      (∀ u ∈ us, ∀ e ∈ u.entities, e.wellFormed = true) →
      ∀ log ∈ (runTimed oracle s pending t us).2.2, ∀ ev ∈ log.events,
        ev.time ≤ log.settle := by
  intro us
  induction us with
  | nil => intro s pending t _ log hlog; cases hlog
  | cons u us2 ih =>
    intro s pending t hwf log hlog
    have hshape : (runTimed oracle s pending t (u :: us2)).2.2 =
        (runRound oracle s pending t u).2.2 ::
          (runTimed oracle (runRound oracle s pending t u).1
            (runRound oracle s pending t u).2.1
            (runRound oracle s pending t u).2.2.settle us2).2.2 := rfl
    rw [hshape] at hlog
    rcases List.mem_cons.mp hlog with rfl | h2
    · exact runRound_events_le oracle s pending t u hok
        (hwf u (List.mem_cons_self _ _))
    · exact ih _ _ _ (fun u2 hu2 => hwf u2 (List.mem_cons_of_mem _ hu2)) log h2

/-- C4 (amended): when every gap-fetch succeeds (and every listed descriptor is
well-formed), each update's promise settles no earlier than every one of its
gap-fetch merges, and its body never starts before then; when a fetch fails the
promise can settle earlier (see the counterexample), but a series's own fetch
and merge sequence depends only on the fetch results for its own key — another
series's failure never prevents it from being fetched and merged. -/
theorem C4_promise_settlement (oracle : String → TimestampRange → FetchReply)
    (us : List UpdateSpec) (s : CacheState) (t : Nat)
    (hok : ∀ k w, ∃ h, (oracle k w).result = Except.ok h)
    (hwf : ∀ u ∈ us, ∀ e ∈ u.entities, e.wellFormed = true) :
    (∀ log ∈ (runTimed oracle s [] t us).2.2,
        log.start ≤ log.settle ∧ ∀ ev ∈ log.events, ev.time ≤ log.settle) ∧
      ∀ (oracle2 : String → TimestampRange → FetchReply) (s2 : CacheState) (t2 : Nat)
        (u : UpdateSpec) (e : EntityConfig) (k : String), getEntityKey e = .ok k →
        (∀ w, oracle k w = oracle2 k w) →
        runEntityT oracle s2 t2 u e = runEntityT oracle2 s2 t2 u e := by
  constructor
  · intro log hlog
    refine ⟨(runTimed_fifo oracle us s [] t).2.1 log hlog, ?_⟩
    exact runTimed_events_le oracle hok us s [] t hwf log hlog
  · intro oracle2 s2 t2 u e k hk hagree
    simp only [runEntityT, hk]
    have hgaps : ∀ (gaps : List TimestampRange) (t3 : Nat),
        runGapsT oracle k u.now t3 gaps = runGapsT oracle2 k u.now t3 gaps := by
      intro gaps
      induction gaps with
      | nil => intro t3; rfl
      | cons g gs ih2 =>
        intro t3
        simp only [runGapsT, hagree (fetchWindow g u.now)]
        rw [ih2]
    rw [hgaps]

/-- C4 witness: the theorem applied to a one-tick always-succeeding oracle and
one update over series `B`. -/
theorem C4_witness :
    ((∀ log ∈ (runTimed (fun _ _ => ⟨1, Except.ok []⟩) initState [] 0 [updateB]).2.2,
        log.start ≤ log.settle ∧ ∀ ev ∈ log.events, ev.time ≤ log.settle) ∧
      ∀ (oracle2 : String → TimestampRange → FetchReply) (s2 : CacheState) (t2 : Nat)
        (u : UpdateSpec) (e : EntityConfig) (k : String), getEntityKey e = .ok k →
        (∀ w, (fun (_ : String) (_ : TimestampRange) =>
            (⟨1, Except.ok []⟩ : FetchReply)) k w = oracle2 k w) →
        runEntityT (fun _ _ => ⟨1, Except.ok []⟩) s2 t2 u e =
          runEntityT oracle2 s2 t2 u e) :=
  C4_promise_settlement (fun _ _ => ⟨1, Except.ok []⟩) [updateB] initState 0
    (fun _ _ => ⟨[], rfl⟩) (by decide)

/-- C4 counterexample: with series `A` failing at tick 5 and series `B`
succeeding at tick 10, `Promise.all` rejects at tick 5, so `update`'s returned
promise settles before `B`'s gap-fetch has settled and merged — refuting "the
returned promise settles only after every listed series's every gap-fetch has
settled". -/
theorem C4_counterexample :
    ¬ (∀ log ∈ (runTimed oracleAB initState [] 0 [updateAB]).2.2,
        ∀ ev ∈ log.events, ev.time ≤ log.settle) := by decide

/-- C5 (amended): update bodies run in FIFO call order, one body at a time —
the N-th body starts exactly when the (N−1)-th update's promise settles,
whether it fulfilled or rejected, so a prior operation's failure never
prevents a later enqueued operation from running (every enqueued update gets
its round) — and when every gap-fetch succeeds (descriptors well-formed),
every merge of updates 1..N−1 settles no later than its update's promise and
is therefore applied before the N-th body's trim and gap computation.  When a
fetch fails, a sibling fetch still in flight may merge only after the next
body has started, so that body can miss a predecessor's effects (see the
counterexample). -/
theorem C5_fifo_serialization (oracle : String → TimestampRange → FetchReply)
    (us : List UpdateSpec) (s : CacheState) (t : Nat) :
    (runTimed oracle s [] t us).2.2.length = us.length ∧
      (∀ log ∈ (runTimed oracle s [] t us).2.2, log.start ≤ log.settle) ∧
      List.Chain' (fun a b : RoundLog => b.start = a.settle)
        ((runTimed oracle s [] t us).2.2) ∧
      ((∀ k w, ∃ h, (oracle k w).result = Except.ok h) →
        (∀ u ∈ us, ∀ e ∈ u.entities, e.wellFormed = true) →
        ∀ log ∈ (runTimed oracle s [] t us).2.2, ∀ ev ∈ log.events,
          ev.time ≤ log.settle) := by
  obtain ⟨h1, h2, h3, -⟩ := runTimed_fifo oracle us s [] t
  exact ⟨h1, h2, h3, fun hok hwf => runTimed_events_le oracle hok us s [] t hwf⟩

/-- C5 witness: the theorem applied to a one-tick always-succeeding oracle and
two queued updates, with the all-success implications discharged. -/
theorem C5_fifo_witness :
    (runTimed (fun _ _ => ⟨1, Except.ok []⟩) initState [] 0 [updateAB, updateB]).2.2.length =
        [updateAB, updateB].length ∧
      (∀ log ∈ (runTimed (fun _ _ => ⟨1, Except.ok []⟩) initState [] 0
          [updateAB, updateB]).2.2, log.start ≤ log.settle) ∧
      List.Chain' (fun a b : RoundLog => b.start = a.settle)
        ((runTimed (fun _ _ => ⟨1, Except.ok []⟩) initState [] 0 [updateAB, updateB]).2.2) ∧
      (∀ log ∈ (runTimed (fun _ _ => ⟨1, Except.ok []⟩) initState [] 0
          [updateAB, updateB]).2.2, ∀ ev ∈ log.events, ev.time ≤ log.settle) := by
  obtain ⟨h1, h2, h3, h4⟩ :=
    C5_fifo_serialization (fun _ _ => ⟨1, Except.ok []⟩) [updateAB, updateB] initState 0
  exact ⟨h1, h2, h3, h4 (fun _ _ => ⟨[], rfl⟩) (by decide)⟩

/-- C5 counterexample: series `A` fails at tick 5 while `B`'s fetch succeeds
only at tick 10, so update 1's promise rejects at tick 5 and update 2's body
runs with `B`'s merge still in flight.  The log shows update 2 recomputed gap
[0,100] for `B` and re-fetched it, merging a duplicate at tick 15 (first two
conjuncts), even though update 1 did produce a successful merge of `B`
covering [0,100] at tick 10 whose application alone would have left no gap
(third conjunct): the second call's gap computation did not observe all
effects of the first call. -/
theorem C5_counterexample :
    ((runTimed oracleAB initState [] 0 [updateAB, updateB]).2.2.map RoundLog.gaps) =
        [[("A", [(XNum.fin 0, XNum.fin 100)]), ("B", [(XNum.fin 0, XNum.fin 100)])],
          [("B", [(XNum.fin 0, XNum.fin 100)])]] ∧
      ((runTimed oracleAB initState [] 0 [updateAB, updateB]).2.2.map RoundLog.events) =
        [[⟨10, "B", [⟨0, "on", true⟩], (XNum.fin 0, XNum.fin 100)⟩],
          [⟨15, "B", [⟨0, "on", true⟩], (XNum.fin 0, XNum.fin 100)⟩]] ∧
      subtractRanges [(XNum.fin 0, XNum.fin 100)]
          ((applyEvents initState
              [⟨10, "B", [⟨0, "on", true⟩], (XNum.fin 0, XNum.fin 100)⟩]).ranges "B") =
        [] := by
  refine ⟨by decide, by decide, by decide⟩
